import Mathlib

/-!
Shallow embedding of `src/arrays/darray/darray.py` (`DeforestedArray`):
a lazy array-expression evaluator that records operations on a postfix
tape with structural sharing and evaluates the tape with an explicit
value/mutability stack, attempting in-place buffer reuse with a
casting-failure fallback.

Modelling conventions:
* numpy arrays are heap cells in an explicit `Store` (so that in-place
  mutation and aliasing are observable); element values are exact
  rationals, and dtypes are modelled at kind granularity
  (`bool < int < float`), which is what the evaluator's branch
  decisions consume (`np.min_scalar_type` / `np.can_cast(..., 'safe')`).
* the shared mutable python lists `ops`/`optypes` are heap entries
  (`opsLists`), and each `DeforestedArray` handle stores the id of its
  backing list plus its `index` (cursor), exactly as in the source.
* recursion in `evaluate` is made total with an explicit fuel argument;
  running out of fuel is a distinguished outcome, never identified with
  any behaviour of the python code.
-/

namespace Darray

/-- Dtype kinds, ordered by the safe-casting lattice used by the code's
`can_cast(..., casting='safe')` checks. -/
inductive DType
  | bool
  | int
  | float
deriving DecidableEq, Repr

def DType.rank : DType → Nat
  | .bool => 0
  | .int => 1
  | .float => 2

/-- Model of `np.can_cast(a, b, casting='safe')` at kind granularity. -/
def canCastSafe (a b : DType) : Bool := a.rank ≤ b.rank

/-- Dtype promotion for a binary elementwise operation. -/
def promoteD (a b : DType) : DType := if a.rank ≤ b.rank then b else a

/-- The 18 binary operator symbols of `op_map` / `bin_op_to_np`. -/
inductive Sym
  | add | sub | mul | tdiv | fdiv | mod | pow
  | eq | ne | lt | le | ge | gt
  | shl | shr | band | bor | bxor
deriving DecidableEq, Repr

def Sym.isCmp : Sym → Bool
  | .eq | .ne | .lt | .le | .ge | .gt => true
  | _ => false

/-- Result dtype of a binary ufunc: comparisons give booleans, true
division always gives floats, everything else promotes. -/
def resultDType (s : Sym) (a b : DType) : DType :=
  if s.isCmp then .bool
  else if s = Sym.tdiv then .float
  else promoteD a b

/-- Interpret a rational as an integer (for shift/bitwise operators). -/
def ratToInt (q : ℚ) : ℤ := if q.den = 1 then q.num else 0

/-- Elementwise semantics of each binary operator on exact rationals.
`//` and `%` follow numpy (floor division; remainder with the sign of
the divisor); division by zero is totalised as 0. -/
def binRat : Sym → ℚ → ℚ → ℚ
  | .add, x, y => x + y
  | .sub, x, y => x - y
  | .mul, x, y => x * y
  | .tdiv, x, y => x / y
  | .fdiv, x, y => if y = 0 then 0 else ((⌊x / y⌋ : ℤ) : ℚ)
  | .mod, x, y => if y = 0 then 0 else x - y * ((⌊x / y⌋ : ℤ) : ℚ)
  | .pow, x, y => if y.den = 1 ∧ 0 ≤ y.num then x ^ y.num.toNat else 0
  | .eq, x, y => if x = y then 1 else 0
  | .ne, x, y => if x = y then 0 else 1
  | .lt, x, y => if x < y then 1 else 0
  | .le, x, y => if x ≤ y then 1 else 0
  | .ge, x, y => if y ≤ x then 1 else 0
  | .gt, x, y => if y < x then 1 else 0
  | .shl, x, y => ((ratToInt x * 2 ^ (ratToInt y).toNat : ℤ) : ℚ)
  | .shr, x, y => ((Int.fdiv (ratToInt x) (2 ^ (ratToInt y).toNat) : ℤ) : ℚ)
  | .band, x, y => ((Int.land (ratToInt x) (ratToInt y) : ℤ) : ℚ)
  | .bor, x, y => ((Int.lor (ratToInt x) (ratToInt y) : ℤ) : ℚ)
  | .bxor, x, y => ((Int.xor (ratToInt x) (ratToInt y) : ℤ) : ℚ)

/-- The unary operator symbols of `unitary_map` / `un_op_to_np`. -/
inductive USym
  | neg
  | inv
  | pos
deriving DecidableEq, Repr

/-- Elementwise semantics of the unary operators (`~x = -x - 1`). -/
def unRat : USym → ℚ → ℚ
  | .neg, x => -x
  | .inv, x => -x - 1
  | .pos, x => x

/-- A concrete numeric value: a scalar or a 1-d array, with its dtype. -/
inductive CVal
  | scl (d : DType) (x : ℚ)
  | arrv (d : DType) (xs : List ℚ)
deriving DecidableEq, Repr

def CVal.dtype : CVal → DType
  | .scl d _ => d
  | .arrv d _ => d

def CVal.vals : CVal → List ℚ
  | .scl _ x => [x]
  | .arrv _ xs => xs

def CVal.isArr : CVal → Bool
  | .scl _ _ => false
  | .arrv _ _ => true

def CVal.withDtype (d : DType) : CVal → CVal
  | .scl _ x => .scl d x
  | .arrv _ xs => .arrv d xs

/-- Model of `bin_op_to_np[symbol](left, right)` with fresh output:
elementwise application with scalar broadcasting. -/
def bin_op_to_np (s : Sym) : CVal → CVal → CVal
  | .scl a x, .scl b y => .scl (resultDType s a b) (binRat s x y)
  | .scl a x, .arrv b ys => .arrv (resultDType s a b) (ys.map fun y => binRat s x y)
  | .arrv a xs, .scl b y => .arrv (resultDType s a b) (xs.map fun x => binRat s x y)
  | .arrv a xs, .arrv b ys => .arrv (resultDType s a b) (List.zipWith (binRat s) xs ys)

/-- Model of `un_op_to_np[symbol](operand)` with fresh output. -/
def un_op_to_np (u : USym) : CVal → CVal
  | .scl d x => .scl d (unRat u x)
  | .arrv d xs => .arrv d (xs.map (unRat u))

/-- One entry of the `ops`/`optypes` pair of parallel lists; the
`optypes` tag (`VAR`, `OP_TRACK`, `BIN_OP`, `BIN_OP_R`, `UNI_OP`,
`FUNC`) is fused into the constructor. -/
inductive Entry
  | varArr (a : Nat)
  | varConst (d : DType) (x : ℚ)
  | track (t : Nat)
  | binOp (s : Sym)
  | binOpR (s : Sym)
  | unOp (u : USym)
  | funcOp (f : String)
deriving DecidableEq, Repr

/-- One `DeforestedArray` python object: for a leaf, `dataCell` points
at its `data` array; `opsId` is the identity of the (shared) backing
`ops` list, and `index` is the handle's cursor into it. -/
structure DeforestedArray where
  dataCell : Option Nat
  refcount : Nat
  opsId : Nat
  index : Nat
deriving DecidableEq, Repr

/-- The heap: array buffers, shared backing ops lists, tape objects. -/
structure Store where
  arrays : List CVal
  opsLists : List (List Entry)
  tapes : List DeforestedArray
deriving DecidableEq, Repr

def emptyStore : Store := ⟨[], [], []⟩

def Store.cell (st : Store) (i : Nat) : CVal := st.arrays.getD i (.arrv .int [])

def Store.opsOf (st : Store) (o : Nat) : List Entry := st.opsLists.getD o []

def Store.tape (st : Store) (t : Nat) : DeforestedArray :=
  st.tapes.getD t ⟨none, 0, 0, 0⟩

def Store.setCell (st : Store) (i : Nat) (v : CVal) : Store :=
  { st with arrays := st.arrays.set i v }

def Store.alloc (st : Store) (v : CVal) : Store × Nat :=
  ({ st with arrays := st.arrays ++ [v] }, st.arrays.length)

def Store.setOps (st : Store) (o : Nat) (l : List Entry) : Store :=
  { st with opsLists := st.opsLists.set o l }

def Store.bumpRef (st : Store) (t : Nat) : Store :=
  { st with
    tapes := st.tapes.set t { st.tape t with refcount := (st.tape t).refcount + 1 } }

/-- `DeforestedArray.__init__` with concrete `data` (a leaf tape):
`ops = [data]`, `optypes = [VAR]`, `index = 1`, `refcount = 0`. -/
def newLeaf (st : Store) (d : DType) (xs : List ℚ) : Store × Nat :=
  let p := st.alloc (.arrv d xs)
  let st1 := p.1
  let aid := p.2
  let oid := st1.opsLists.length
  let st2 := { st1 with opsLists := st1.opsLists ++ [[Entry.varArr aid]] }
  let tid := st2.tapes.length
  ({ st2 with tapes := st2.tapes ++ [⟨some aid, 0, oid, 1⟩] }, tid)

/-- The `other` argument of `__update_binary__`: a nested tape or a
plain (scalar) constant. -/
inductive BOperand
  | tapeOp (t : Nat)
  | constOp (d : DType) (x : ℚ)
deriving DecidableEq, Repr

/-- `DeforestedArray.__update_binary__(other, symbol, direction)`:
extend the backing list in place when this handle is at its tip
(`self.index == len(self.ops)`), else copy the prefix; append the
operand entry and the operator entry; increment `other.refcount` if it
is a tape; return a fresh handle with cursor `self.index + 2`. -/
def updateBinary (st : Store) (selfT : Nat) (other : BOperand) (s : Sym)
    (reversed : Bool) : Store × Nat :=
  let tp := st.tape selfT
  let full := st.opsOf tp.opsId
  let otherE : Entry :=
    match other with
    | .tapeOp t => .track t
    | .constOp d x => .varConst d x
  let opE : Entry := if reversed then .binOpR s else .binOp s
  let p : Store × Nat :=
    if tp.index = full.length then
      (st.setOps tp.opsId (full ++ [otherE, opE]), tp.opsId)
    else
      ({ st with opsLists := st.opsLists ++ [full.take tp.index ++ [otherE, opE]] },
       st.opsLists.length)
  let st1 := p.1
  let oid := p.2
  let st2 :=
    match other with
    | .tapeOp t => st1.bumpRef t
    | .constOp _ _ => st1
  let tid := st2.tapes.length
  ({ st2 with tapes := st2.tapes ++ [⟨none, 0, oid, tp.index + 2⟩] }, tid)

/-- `DeforestedArray.__update_unary__(symbol)`: one `UNI_OP` entry
appended, cursor `+ 1`. -/
def updateUnary (st : Store) (selfT : Nat) (u : USym) : Store × Nat :=
  let tp := st.tape selfT
  let full := st.opsOf tp.opsId
  let p : Store × Nat :=
    if tp.index = full.length then
      (st.setOps tp.opsId (full ++ [Entry.unOp u]), tp.opsId)
    else
      ({ st with opsLists := st.opsLists ++ [full.take tp.index ++ [Entry.unOp u]] },
       st.opsLists.length)
  let tid := p.1.tapes.length
  ({ p.1 with tapes := p.1.tapes ++ [⟨none, 0, p.2, tp.index + 1⟩] }, tid)

/-- `DeforestedArray.__update_func__(name)`: one `FUNC` entry appended,
cursor `+ 1`. -/
def updateFunc (st : Store) (selfT : Nat) (name : String) : Store × Nat :=
  let tp := st.tape selfT
  let full := st.opsOf tp.opsId
  let p : Store × Nat :=
    if tp.index = full.length then
      (st.setOps tp.opsId (full ++ [Entry.funcOp name]), tp.opsId)
    else
      ({ st with opsLists := st.opsLists ++ [full.take tp.index ++ [Entry.funcOp name]] },
       st.opsLists.length)
  let tid := p.1.tapes.length
  ({ p.1 with tapes := p.1.tapes ++ [⟨none, 0, p.2, tp.index + 1⟩] }, tid)

/-- The identities collected by the evaluator's up-front set
`immutable = {e for e, t in zip(self.ops, self.optypes) if t is OP_TRACK}`:
every nested tape occurring anywhere in the full backing list. -/
def tracksOf (l : List Entry) : List Nat :=
  l.filterMap fun e =>
    match e with
    | .track t => some t
    | _ => none

inductive EvalErr
  | notImplemented
  | malformed
  | typeErr
  | outOfFuel
deriving DecidableEq, Repr

/-- A value on the evaluator's stack: an array buffer, a scalar, or a
not-yet-evaluated nested tape (resolved lazily when popped). -/
inductive SVal
  | arrS (i : Nat)
  | sclS (d : DType) (x : ℚ)
  | tapeS (t : Nat)
deriving DecidableEq, Repr

def SVal.toCVal (st : Store) : SVal → CVal
  | .arrS i => st.cell i
  | .sclS d x => .scl d x
  | .tapeS _ => .arrv .int []

/-- `np.min_scalar_type` at kind granularity: an array's own dtype, a
scalar's kind. -/
def minScalarOf (v : CVal) : DType := v.dtype

/-- The attempted in-place call
`bin_op_to_np[elem](op_left, op_right, out=buf, casting='safe')`.
`none` models the `TypeError`/`ValueError`/`UFuncTypeError` that the
source catches (result kind not safely castable into the out buffer,
out not a writable buffer, or shape mismatch); on success the result is
written into the buffer (which keeps its own dtype) and the buffer is
the result. -/
def tryInplace (st : Store) (s : Sym) (outSlot : SVal) (lv rv : CVal) :
    Option (Store × SVal) :=
  match outSlot with
  | .arrS i =>
    let res := bin_op_to_np s lv rv
    let cv := st.cell i
    if canCastSafe res.dtype cv.dtype && res.isArr
        && (res.vals.length == cv.vals.length) then
      some (st.setCell i (res.withDtype cv.dtype), .arrS i)
    else none
  | _ => none

/-- Push a freshly computed result: a numpy scalar stays a scalar (it
has no writable buffer); an array result becomes a fresh heap cell. -/
def pushResult (st : Store) (res : CVal) : Store × SVal :=
  match res with
  | .scl d x => (st, .sclS d x)
  | .arrv d xs =>
    let p := st.alloc (.arrv d xs)
    (p.1, .arrS p.2)

/-- The pure dispatch step for a resolved binary operation: the
in-place attempt against the mutability flags and
`can_cast(min_scalar_type(right), min_scalar_type(left), 'safe')`
(then the symmetric right-buffer attempt), with fallback to a fresh
allocation when the attempted call fails. -/
def binApply (st : Store) (s : Sym) (lslot : SVal) (ml : Bool) (rslot : SVal)
    (mr : Bool) : Store × SVal :=
  let lv := lslot.toCVal st
  let rv := rslot.toCVal st
  if ml && canCastSafe (minScalarOf rv) (minScalarOf lv) then
    match tryInplace st s lslot lv rv with
    | some q => q
    | none => pushResult st (bin_op_to_np s lv rv)
  else if mr && canCastSafe (minScalarOf lv) (minScalarOf rv) then
    match tryInplace st s rslot lv rv with
    | some q => q
    | none => pushResult st (bin_op_to_np s lv rv)
  else
    pushResult st (bin_op_to_np s lv rv)

/-- The loop body of `DeforestedArray.evaluate`: walk the visible
entries with parallel value and mutability stacks.  Operand entries are
pushed with mutability `(optype is OP_TRACK) and (elem not in immutable)`;
binary entries pop two values (pop order per `BIN_OP` / `BIN_OP_R`),
resolve nested tapes by re-entrant evaluation (left operand first),
then try in-place output per the mutability flags and
`can_cast(min_scalar_type(...), ..., 'safe')`, falling back to a fresh
allocation when the in-place call fails; results are pushed mutable.
`FUNC` entries raise `NotImplementedError`.  At the end the top of the
stack is returned.  The operand-resolution and binary-step helper
bodies are inlined here so the whole machine is structurally recursive
on the fuel; `resolveOp` and `binStep` below name those bodies. -/
def walk (fuel : Nat) (st : Store) (es : List Entry) (stack : List SVal)
    (muts : List Bool) (imm : List Nat) : Except EvalErr (Store × SVal) :=
  match es with
  | [] =>
    match stack with
    | v :: _ => .ok (st, v)
    | [] => .error .malformed
  | e :: rest =>
    match fuel with
    | 0 => .error .outOfFuel
    | f + 1 =>
      match e with
      | .varArr a => walk f st rest (.arrS a :: stack) (false :: muts) imm
      | .varConst d x => walk f st rest (.sclS d x :: stack) (false :: muts) imm
      | .track t =>
        walk f st rest (.tapeS t :: stack) (decide (t ∉ imm) :: muts) imm
      | .funcOp _ => .error .notImplemented
      | .unOp u =>
        match stack, muts with
        | v :: stack', m :: muts' =>
          ((match v with
            | .tapeS t =>
              match f with
              | 0 => .error .outOfFuel
              | f' + 1 =>
                let tp := st.tape t
                let full := st.opsOf tp.opsId
                walk f' st (full.take tp.index) [] [] (tracksOf full)
            | _ => .ok (st, v)) : Except EvalErr (Store × SVal)).casesOn
            (fun err => .error err)
            (fun pu =>
              if m then
                match pu.2 with
                | .arrS i =>
                  walk f (pu.1.setCell i (un_op_to_np u (pu.1.cell i))) rest
                    (.arrS i :: stack') (true :: muts') imm
                | _ => .error .typeErr
              else
                walk f (pushResult pu.1 (un_op_to_np u (pu.2.toCVal pu.1))).1 rest
                  ((pushResult pu.1 (un_op_to_np u (pu.2.toCVal pu.1))).2 :: stack')
                  (true :: muts') imm)
        | _, _ => .error .malformed
      | .binOp s =>
        match stack, muts with
        | v1 :: v2 :: stack', m1 :: m2 :: muts' =>
          ((match v2 with
            | .tapeS t =>
              match f with
              | 0 => .error .outOfFuel
              | f' + 1 =>
                let tp := st.tape t
                let full := st.opsOf tp.opsId
                walk f' st (full.take tp.index) [] [] (tracksOf full)
            | _ => .ok (st, v2)) : Except EvalErr (Store × SVal)).casesOn
            (fun err => .error err)
            (fun pl =>
              ((match v1 with
                | .tapeS t =>
                  match f with
                  | 0 => .error .outOfFuel
                  | f' + 1 =>
                    let tp := pl.1.tape t
                    let full := pl.1.opsOf tp.opsId
                    walk f' pl.1 (full.take tp.index) [] [] (tracksOf full)
                | _ => .ok (pl.1, v1)) : Except EvalErr (Store × SVal)).casesOn
                (fun err => .error err)
                (fun pr =>
                  walk f (binApply pr.1 s pl.2 m2 pr.2 m1).1 rest
                    ((binApply pr.1 s pl.2 m2 pr.2 m1).2 :: stack')
                    (true :: muts') imm))
        | _, _ => .error .malformed
      | .binOpR s =>
        match stack, muts with
        | v1 :: v2 :: stack', m1 :: m2 :: muts' =>
          ((match v1 with
            | .tapeS t =>
              match f with
              | 0 => .error .outOfFuel
              | f' + 1 =>
                let tp := st.tape t
                let full := st.opsOf tp.opsId
                walk f' st (full.take tp.index) [] [] (tracksOf full)
            | _ => .ok (st, v1)) : Except EvalErr (Store × SVal)).casesOn
            (fun err => .error err)
            (fun pl =>
              ((match v2 with
                | .tapeS t =>
                  match f with
                  | 0 => .error .outOfFuel
                  | f' + 1 =>
                    let tp := pl.1.tape t
                    let full := pl.1.opsOf tp.opsId
                    walk f' pl.1 (full.take tp.index) [] [] (tracksOf full)
                | _ => .ok (pl.1, v2)) : Except EvalErr (Store × SVal)).casesOn
                (fun err => .error err)
                (fun pr =>
                  walk f (binApply pr.1 s pl.2 m1 pr.2 m2).1 rest
                    ((binApply pr.1 s pl.2 m1 pr.2 m2).2 :: stack')
                    (true :: muts') imm))
        | _, _ => .error .malformed

/-- Resolution of a popped stack value: a nested tape is evaluated by a
re-entrant `evaluate` call (`op.evaluate()`), anything else is already
a value. -/
def resolveOp (fuel : Nat) (st : Store) (v : SVal) :
    Except EvalErr (Store × SVal) :=
  match v with
  | .tapeS t =>
    match fuel with
    | 0 => .error .outOfFuel
    | f + 1 =>
      let tp := st.tape t
      let full := st.opsOf tp.opsId
      walk f st (full.take tp.index) [] [] (tracksOf full)
  | _ => .ok (st, v)

/-- Shared tail of the `BIN_OP` / `BIN_OP_R` cases: resolve the left
operand, then the right, then dispatch with the in-place/fallback
logic and continue the walk with the result pushed as mutable. -/
def binStep (fuel : Nat) (st : Store) (s : Sym) (opl : SVal) (ml : Bool)
    (opr : SVal) (mr : Bool) (rest : List Entry) (stack : List SVal)
    (muts : List Bool) (imm : List Nat) : Except EvalErr (Store × SVal) :=
  match resolveOp fuel st opl with
  | .error err => .error err
  | .ok (st1, lslot) =>
    match resolveOp fuel st1 opr with
    | .error err => .error err
    | .ok (st2, rslot) =>
      let p := binApply st2 s lslot ml rslot mr
      walk fuel p.1 rest (p.2 :: stack) (true :: muts) imm

/-- `DeforestedArray.evaluate`: walk the entries visible to this handle
(`islice(self.ops, self.index)`), with the up-front `immutable` set
computed from the full backing list. -/
def evaluate (fuel : Nat) (st : Store) (t : Nat) : Except EvalErr (Store × SVal) :=
  let tp := st.tape t
  let full := st.opsOf tp.opsId
  walk fuel st (full.take tp.index) [] [] (tracksOf full)

/-- Convenience observer: run `evaluate` and extract the numeric
contents of the result. -/
def runVals (fuel : Nat) (st : Store) (t : Nat) : Option (List ℚ) :=
  match evaluate fuel st t with
  | .ok (st', v) => some ((v.toCVal st').vals)
  | .error _ => none

/-- Convenience observer: run `evaluate` and extract the result value
with its dtype. -/
def runCVal (fuel : Nat) (st : Store) (t : Nat) : Option CVal :=
  match evaluate fuel st t with
  | .ok (st', v) => some (v.toCVal st')
  | .error _ => none

/-! ### Basic store lemmas -/

theorem cell_setCell_self (st : Store) (i : Nat) (v : CVal) (h : i < st.arrays.length) :
    (st.setCell i v).cell i = v := by
  simp [Store.setCell, Store.cell, List.getD, List.getElem?_set_self, h]

theorem cell_setCell_ne (st : Store) (i j : Nat) (v : CVal) (h : i ≠ j) :
    (st.setCell i v).cell j = st.cell j := by
  simp [Store.setCell, Store.cell, List.getD, List.getElem?_set_ne h]

@[simp] theorem arrays_setCell (st : Store) (i : Nat) (v : CVal) :
    (st.setCell i v).arrays.length = st.arrays.length := by
  simp [Store.setCell]

@[simp] theorem opsLists_setCell (st : Store) (i : Nat) (v : CVal) :
    (st.setCell i v).opsLists = st.opsLists := rfl

@[simp] theorem tapes_setCell (st : Store) (i : Nat) (v : CVal) :
    (st.setCell i v).tapes = st.tapes := rfl

theorem cell_alloc_old (st : Store) (v : CVal) (i : Nat) (h : i < st.arrays.length) :
    (st.alloc v).1.cell i = st.cell i := by
  simp [Store.alloc, Store.cell, List.getD, List.getElem?_append, h]

theorem cell_alloc_new (st : Store) (v : CVal) :
    (st.alloc v).1.cell (st.alloc v).2 = v := by
  simp [Store.alloc, Store.cell, List.getD, List.getElem?_concat_length]

@[simp] theorem arrays_alloc (st : Store) (v : CVal) :
    (st.alloc v).1.arrays.length = st.arrays.length + 1 := by
  simp [Store.alloc]

@[simp] theorem opsLists_alloc (st : Store) (v : CVal) :
    (st.alloc v).1.opsLists = st.opsLists := rfl

@[simp] theorem tapes_alloc (st : Store) (v : CVal) :
    (st.alloc v).1.tapes = st.tapes := rfl

@[simp] theorem snd_alloc (st : Store) (v : CVal) :
    (st.alloc v).2 = st.arrays.length := rfl

@[simp] theorem cell_of_opsLists_update (st : Store) (l : List (List Entry)) (i : Nat) :
    (Store.mk st.arrays l st.tapes).cell i = st.cell i := rfl

@[simp] theorem arrays_bumpRef (st : Store) (t : Nat) :
    (st.bumpRef t).arrays = st.arrays := rfl

@[simp] theorem opsLists_bumpRef (st : Store) (t : Nat) :
    (st.bumpRef t).opsLists = st.opsLists := rfl

@[simp] theorem tapes_bumpRef_length (st : Store) (t : Nat) :
    (st.bumpRef t).tapes.length = st.tapes.length := by
  simp [Store.bumpRef]

theorem tape_bumpRef_ne (st : Store) (t u : Nat) (h : t ≠ u) :
    (st.bumpRef t).tape u = st.tape u := by
  simp [Store.bumpRef, Store.tape, List.getD, List.getElem?_set_ne h]

theorem tape_bumpRef_self (st : Store) (t : Nat) (h : t < st.tapes.length) :
    (st.bumpRef t).tape t = { st.tape t with refcount := (st.tape t).refcount + 1 } := by
  simp [Store.bumpRef, Store.tape, List.getD, List.getElem?_set_self, h]

theorem opsOf_setOps_self (st : Store) (o : Nat) (l : List Entry) (h : o < st.opsLists.length) :
    (st.setOps o l).opsOf o = l := by
  simp [Store.setOps, Store.opsOf, List.getD, List.getElem?_set_self, h]

theorem opsOf_setOps_ne (st : Store) (o u : Nat) (l : List Entry) (h : o ≠ u) :
    (st.setOps o l).opsOf u = st.opsOf u := by
  simp [Store.setOps, Store.opsOf, List.getD, List.getElem?_set_ne h]

@[simp] theorem arrays_setOps (st : Store) (o : Nat) (l : List Entry) :
    (st.setOps o l).arrays = st.arrays := rfl

@[simp] theorem tapes_setOps (st : Store) (o : Nat) (l : List Entry) :
    (st.setOps o l).tapes = st.tapes := rfl

@[simp] theorem opsLists_setOps_length (st : Store) (o : Nat) (l : List Entry) :
    (st.setOps o l).opsLists.length = st.opsLists.length := by
  simp [Store.setOps]

theorem opsOf_append_old (st : Store) (ls : List (List Entry)) (o : Nat)
    (h : o < st.opsLists.length) :
    (Store.mk st.arrays (st.opsLists ++ ls) st.tapes).opsOf o = st.opsOf o := by
  simp [Store.opsOf, List.getD, List.getElem?_append, h]

theorem tape_append_old (st : Store) (ts : List DeforestedArray) (t : Nat)
    (h : t < st.tapes.length) :
    (Store.mk st.arrays st.opsLists (st.tapes ++ ts)).tape t = st.tape t := by
  simp [Store.tape, List.getD, List.getElem?_append, h]

/-! ### Store extension relations -/

/-- How a store can change across a (nested) `evaluate` run: tapes and
backing lists untouched, array heap only grows, and every
pre-existing cell keeps its value. -/
def EvalExt (st st' : Store) : Prop :=
  st'.opsLists = st.opsLists ∧ st'.tapes = st.tapes ∧
  st.arrays.length ≤ st'.arrays.length ∧
  ∀ i, i < st.arrays.length → st'.cell i = st.cell i

theorem evalExt_refl (st : Store) : EvalExt st st :=
  ⟨Eq.refl _, Eq.refl _, Nat.le_refl _, fun _ _ => Eq.refl _⟩

theorem evalExt_trans {st st1 st2 : Store} (h1 : EvalExt st st1) (h2 : EvalExt st1 st2) :
    EvalExt st st2 := by
  obtain ⟨a1, b1, c1, d1⟩ := h1
  obtain ⟨a2, b2, c2, d2⟩ := h2
  exact ⟨a2.trans a1, b2.trans b1, Nat.le_trans c1 c2,
    fun i hi => (d2 i (Nat.lt_of_lt_of_le hi c1)).trans (d1 i hi)⟩

theorem EvalExt.alloc {st st' : Store} (h : EvalExt st st') (v : CVal) :
    EvalExt st ((st'.alloc v).1) := by
  obtain ⟨a, b, c, d⟩ := h
  refine ⟨by simpa using a, by simpa using b, ?_, fun i hi => ?_⟩
  · simp
    omega
  · rw [cell_alloc_old]
    · exact d i hi
    · omega

theorem EvalExt.setCell_ge {st st' : Store} (h : EvalExt st st') (i : Nat)
    (hi : st.arrays.length ≤ i) (v : CVal) :
    EvalExt st (st'.setCell i v) := by
  obtain ⟨a, b, c, d⟩ := h
  refine ⟨by simpa using a, by simpa using b, by simpa using c, fun j hj => ?_⟩
  rw [cell_setCell_ne]
  · exact d j hj
  · omega

theorem EvalExt.pushResult {st st' : Store} (h : EvalExt st st') (res : CVal) :
    EvalExt st (pushResult st' res).1 := by
  cases res with
  | scl d x => exact h
  | arrv d xs => exact h.alloc _

/-- How a store can change across tape construction and evaluation
combined: old cells keep their values, old tape handles keep their
`opsId`, `index` and `dataCell` fields (only `refcount` may change),
and old backing lists are only ever extended at the tail. -/
def PrefExt (st st' : Store) : Prop :=
  st.arrays.length ≤ st'.arrays.length ∧
  (∀ i, i < st.arrays.length → st'.cell i = st.cell i) ∧
  st.tapes.length ≤ st'.tapes.length ∧
  (∀ t, t < st.tapes.length → (st'.tape t).opsId = (st.tape t).opsId ∧
      (st'.tape t).index = (st.tape t).index ∧
      (st'.tape t).dataCell = (st.tape t).dataCell) ∧
  st.opsLists.length ≤ st'.opsLists.length ∧
  (∀ o, o < st.opsLists.length → st.opsOf o <+: st'.opsOf o)

theorem prefExt_refl (st : Store) : PrefExt st st :=
  ⟨Nat.le_refl _, fun _ _ => Eq.refl _, Nat.le_refl _,
   fun _ _ => ⟨Eq.refl _, Eq.refl _, Eq.refl _⟩,
   Nat.le_refl _, fun _ _ => List.prefix_rfl⟩

theorem prefExt_trans {st st1 st2 : Store} (h1 : PrefExt st st1) (h2 : PrefExt st1 st2) :
    PrefExt st st2 := by
  obtain ⟨a1, b1, c1, d1, e1, f1⟩ := h1
  obtain ⟨a2, b2, c2, d2, e2, f2⟩ := h2
  refine ⟨Nat.le_trans a1 a2, fun i hi => ?_, Nat.le_trans c1 c2, fun t ht => ?_,
    Nat.le_trans e1 e2, fun o ho => ?_⟩
  · exact (b2 i (Nat.lt_of_lt_of_le hi a1)).trans (b1 i hi)
  · obtain ⟨x1, y1, z1⟩ := d1 t ht
    obtain ⟨x2, y2, z2⟩ := d2 t (Nat.lt_of_lt_of_le ht c1)
    exact ⟨x2.trans x1, y2.trans y1, z2.trans z1⟩
  · exact (f1 o ho).trans (f2 o (Nat.lt_of_lt_of_le ho e1))

theorem tape_congr {st st' : Store} (h : st'.tapes = st.tapes) (t : Nat) :
    st'.tape t = st.tape t := by
  simp [Store.tape, h]

theorem opsOf_congr {st st' : Store} (h : st'.opsLists = st.opsLists) (o : Nat) :
    st'.opsOf o = st.opsOf o := by
  simp [Store.opsOf, h]

theorem evalExt_toPrefExt {st st' : Store} (h : EvalExt st st') : PrefExt st st' := by
  obtain ⟨a, b, c, d⟩ := h
  refine ⟨c, d, by rw [b], fun t _ => by rw [tape_congr b]; exact ⟨Eq.refl _, Eq.refl _, Eq.refl _⟩,
    by rw [a], fun o _ => by rw [opsOf_congr a]⟩

/-! ### Expressions and direct evaluation -/

/-- Expressions built purely from leaf tapes, the binary operators in
forward (`tape OP tape`, `tape OP const`) and reflected
(`const OP tape`) form, and scalar constants. -/
inductive Expr
  | leaf (d : DType) (xs : List ℚ)
  | binTT (s : Sym) (l r : Expr)
  | binTC (s : Sym) (l : Expr) (d : DType) (x : ℚ)
  | binCT (s : Sym) (d : DType) (x : ℚ) (r : Expr)
deriving DecidableEq, Repr

/-- Direct evaluation of the expression on the underlying concrete
arrays, with standard elementwise/broadcasting operator semantics
(the same ufunc models the tape evaluator dispatches to). -/
def denote : Expr → CVal
  | .leaf d xs => .arrv d xs
  | .binTT s l r => bin_op_to_np s (denote l) (denote r)
  | .binTC s l d x => bin_op_to_np s (denote l) (.scl d x)
  | .binCT s d x r => bin_op_to_np s (.scl d x) (denote r)

/-- Build the expression as the python operator overloads would:
`l OP r` on two tapes calls `l.__update_binary__(r, sym, BIN_OP)`;
`l OP c` calls `l.__update_binary__(c, sym, BIN_OP)`; `c OP r` goes
through the reflected dunder `r.__rOP__(c)`, i.e.
`r.__update_binary__(c, sym, BIN_OP_R)`. -/
def buildE (st : Store) : Expr → Store × Nat
  | .leaf d xs => newLeaf st d xs
  | .binTT s l r =>
    let pl := buildE st l
    let pr := buildE pl.1 r
    updateBinary pr.1 pl.2 (.tapeOp pr.2) s false
  | .binTC s l d x =>
    let pl := buildE st l
    updateBinary pl.1 pl.2 (.constOp d x) s false
  | .binCT s d x r =>
    let pr := buildE st r
    updateBinary pr.1 pr.2 (.constOp d x) s true

/-- Number of visible tape entries the built expression owns. -/
def entsLen : Expr → Nat
  | .leaf _ _ => 1
  | .binTT _ l _ => entsLen l + 2
  | .binTC _ l _ _ => entsLen l + 2
  | .binCT _ _ _ r => entsLen r + 2

/-- Fuel slack sufficient for the evaluation of the built expression
(on top of one unit per visible entry). -/
def needH : Expr → Nat
  | .leaf _ _ => 0
  | .binTT _ l r => Nat.max (needH l) (entsLen r + needH r + 1)
  | .binTC _ l _ _ => needH l
  | .binCT _ _ _ r => needH r

/-- Fuel sufficient for a full `evaluate` of the built expression. -/
def needFuel (e : Expr) : Nat := entsLen e + needH e

/-! ### The tape/expression correspondence -/

/-- `EntriesFor st es e`: the entry list `es` is the postfix tape a
build of `e` lays down, relative to store `st` (leaf cells hold the
leaf data; nested tapes are in-store handles whose own visible entries
again correspond to their subexpressions). -/
inductive EntriesFor (st : Store) : List Entry → Expr → Prop
  | leaf (a : Nat) (d : DType) (xs : List ℚ)
      (ha : a < st.arrays.length) (hv : st.cell a = .arrv d xs) :
      EntriesFor st [.varArr a] (.leaf d xs)
  | binTT (esl : List Entry) (l : Expr) (tr : Nat) (r : Expr) (s : Sym)
      (hl : EntriesFor st esl l)
      (htr : tr < st.tapes.length)
      (hoid : (st.tape tr).opsId < st.opsLists.length)
      (hix : (st.tape tr).index ≤ (st.opsOf (st.tape tr).opsId).length)
      (hr : EntriesFor st ((st.opsOf (st.tape tr).opsId).take (st.tape tr).index) r) :
      EntriesFor st (esl ++ [.track tr, .binOp s]) (.binTT s l r)
  | binTC (esl : List Entry) (l : Expr) (s : Sym) (d : DType) (x : ℚ)
      (hl : EntriesFor st esl l) :
      EntriesFor st (esl ++ [.varConst d x, .binOp s]) (.binTC s l d x)
  | binCT (esr : List Entry) (r : Expr) (s : Sym) (d : DType) (x : ℚ)
      (hr : EntriesFor st esr r) :
      EntriesFor st (esr ++ [.varConst d x, .binOpR s]) (.binCT s d x r)

/-- `TapeFor st t e`: the in-store tape handle `t` represents `e`. -/
def TapeFor (st : Store) (t : Nat) (e : Expr) : Prop :=
  t < st.tapes.length ∧
  (st.tape t).opsId < st.opsLists.length ∧
  (st.tape t).index ≤ (st.opsOf (st.tape t).opsId).length ∧
  EntriesFor st ((st.opsOf (st.tape t).opsId).take (st.tape t).index) e

theorem prefix_take_eq {l l' : List Entry} (h : l <+: l') (n : Nat) (hn : n ≤ l.length) :
    l'.take n = l.take n := by
  obtain ⟨t, rfl⟩ := h
  exact List.take_append_of_le_length hn

theorem entriesFor_mono {st st' : Store} (hext : PrefExt st st') :
    ∀ {es : List Entry} {e : Expr}, EntriesFor st es e → EntriesFor st' es e := by
  intro es e h
  induction h with
  | leaf a d xs ha hv =>
    exact .leaf a d xs (Nat.lt_of_lt_of_le ha hext.1) ((hext.2.1 a ha).trans hv)
  | binTT esl l tr r s hl htr hoid hix hr ihl ihr =>
    obtain ⟨x, y, z⟩ := hext.2.2.2.1 tr htr
    have hpre : st.opsOf (st.tape tr).opsId <+: st'.opsOf (st'.tape tr).opsId := by
      rw [x]
      exact hext.2.2.2.2.2 _ hoid
    have htake : (st'.opsOf (st'.tape tr).opsId).take ((st'.tape tr).index)
        = (st.opsOf (st.tape tr).opsId).take ((st.tape tr).index) := by
      rw [y]
      exact prefix_take_eq hpre _ hix
    refine .binTT esl l tr r s ihl (Nat.lt_of_lt_of_le htr hext.2.2.1) ?_ ?_ ?_
    · rw [x]
      exact Nat.lt_of_lt_of_le hoid hext.2.2.2.2.1
    · rw [y]
      exact Nat.le_trans hix hpre.length_le
    · rw [htake]
      exact ihr
  | binTC esl l s d x hl ihl => exact .binTC esl l s d x ihl
  | binCT esr r s d x hr ihr => exact .binCT esr r s d x ihr

theorem tapeFor_mono {st st' : Store} (hext : PrefExt st st') {t : Nat} {e : Expr}
    (h : TapeFor st t e) : TapeFor st' t e := by
  obtain ⟨ht, hoid, hix, hents⟩ := h
  obtain ⟨x, y, z⟩ := hext.2.2.2.1 t ht
  have hpre : st.opsOf (st.tape t).opsId <+: st'.opsOf (st'.tape t).opsId := by
    rw [x]
    exact hext.2.2.2.2.2 _ hoid
  refine ⟨Nat.lt_of_lt_of_le ht hext.2.2.1, ?_, ?_, ?_⟩
  · rw [x]
    exact Nat.lt_of_lt_of_le hoid hext.2.2.2.2.1
  · rw [y]
    exact Nat.le_trans hix hpre.length_le
  · rw [y, prefix_take_eq hpre _ hix]
    exact entriesFor_mono hext hents

theorem EntriesFor.length_eq {st : Store} {es : List Entry} {e : Expr}
    (h : EntriesFor st es e) : es.length = entsLen e := by
  induction h with
  | leaf a d xs ha hv => rfl
  | binTT esl l tr r s hl htr hoid hix hr ihl ihr =>
    simp [entsLen, ihl]
  | binTC esl l s d x hl ihl => simp [entsLen, ihl]
  | binCT esr r s d x hr ihr => simp [entsLen, ihr]

/-! ### Build correctness -/

theorem cell_congr {st st' : Store} (h : st'.arrays = st.arrays) (i : Nat) :
    st'.cell i = st.cell i := by
  simp [Store.cell, h]

/-- How a store changes across `buildE`: old cells, old backing lists
and old tape handles (up to `refcount`) are untouched. -/
def BuildExt (st st' : Store) : Prop :=
  st.arrays.length ≤ st'.arrays.length ∧
  (∀ i, i < st.arrays.length → st'.cell i = st.cell i) ∧
  st.tapes.length ≤ st'.tapes.length ∧
  (∀ t, t < st.tapes.length → (st'.tape t).opsId = (st.tape t).opsId ∧
      (st'.tape t).index = (st.tape t).index ∧
      (st'.tape t).dataCell = (st.tape t).dataCell) ∧
  st.opsLists.length ≤ st'.opsLists.length ∧
  (∀ o, o < st.opsLists.length → st'.opsOf o = st.opsOf o)

theorem buildExt_refl (st : Store) : BuildExt st st :=
  ⟨Nat.le_refl _, fun _ _ => Eq.refl _, Nat.le_refl _,
   fun _ _ => ⟨Eq.refl _, Eq.refl _, Eq.refl _⟩, Nat.le_refl _, fun _ _ => Eq.refl _⟩

theorem buildExt_trans {st st1 st2 : Store} (h1 : BuildExt st st1) (h2 : BuildExt st1 st2) :
    BuildExt st st2 := by
  obtain ⟨a1, b1, c1, d1, e1, f1⟩ := h1
  obtain ⟨a2, b2, c2, d2, e2, f2⟩ := h2
  refine ⟨Nat.le_trans a1 a2, fun i hi => ?_, Nat.le_trans c1 c2, fun t ht => ?_,
    Nat.le_trans e1 e2, fun o ho => ?_⟩
  · exact (b2 i (Nat.lt_of_lt_of_le hi a1)).trans (b1 i hi)
  · obtain ⟨x1, y1, z1⟩ := d1 t ht
    obtain ⟨x2, y2, z2⟩ := d2 t (Nat.lt_of_lt_of_le ht c1)
    exact ⟨x2.trans x1, y2.trans y1, z2.trans z1⟩
  · exact (f2 o (Nat.lt_of_lt_of_le ho e1)).trans (f1 o ho)

theorem buildExt_toPrefExt {st st' : Store} (h : BuildExt st st') : PrefExt st st' := by
  obtain ⟨a, b, c, d, e, f⟩ := h
  exact ⟨a, b, c, d, e, fun o ho => (f o ho) ▸ List.prefix_rfl⟩

theorem getD_append_lt {α : Type} (l t : List α) (n : Nat) (d : α) (h : n < l.length) :
    (l ++ t).getD n d = l.getD n d := by
  simp [List.getD, List.getElem?_append, h]

theorem getD_concat_self {α : Type} (l : List α) (x : α) (d : α) :
    (l ++ [x]).getD l.length d = x := by
  simp [List.getD, List.getElem?_concat_length]

/-- Everything `newLeaf` does to the store and the handle it returns. -/
theorem newLeaf_build (st : Store) (d : DType) (xs : List ℚ) :
    BuildExt st (newLeaf st d xs).1 ∧
    (newLeaf st d xs).2 = st.tapes.length ∧
    (newLeaf st d xs).1.tapes.length = st.tapes.length + 1 ∧
    (newLeaf st d xs).1.opsLists.length = st.opsLists.length + 1 ∧
    (newLeaf st d xs).1.arrays.length = st.arrays.length + 1 ∧
    (newLeaf st d xs).1.tape (newLeaf st d xs).2
      = ⟨some st.arrays.length, 0, st.opsLists.length, 1⟩ ∧
    (newLeaf st d xs).1.opsOf st.opsLists.length = [.varArr st.arrays.length] ∧
    (newLeaf st d xs).1.cell st.arrays.length = .arrv d xs := by
  have harr : (newLeaf st d xs).1.arrays = st.arrays ++ [CVal.arrv d xs] := rfl
  have hops : (newLeaf st d xs).1.opsLists
      = st.opsLists ++ [[Entry.varArr st.arrays.length]] := rfl
  have htp : (newLeaf st d xs).1.tapes
      = st.tapes ++ [⟨some st.arrays.length, 0, st.opsLists.length, 1⟩] := rfl
  have hcell : ∀ i, (newLeaf st d xs).1.cell i
      = (st.arrays ++ [CVal.arrv d xs]).getD i (.arrv .int []) := by
    intro i
    rw [Store.cell, harr]
  have htape : ∀ t, (newLeaf st d xs).1.tape t
      = (st.tapes ++ [(⟨some st.arrays.length, 0, st.opsLists.length, 1⟩ : DeforestedArray)]).getD t
          ⟨none, 0, 0, 0⟩ := by
    intro t
    rw [Store.tape, htp]
  have hopsOf : ∀ o, (newLeaf st d xs).1.opsOf o
      = (st.opsLists ++ [[Entry.varArr st.arrays.length]]).getD o [] := by
    intro o
    rw [Store.opsOf, hops]
  refine ⟨⟨?_, fun i hi => ?_, ?_, fun t ht => ?_, ?_, fun o ho => ?_⟩,
    rfl, ?_, ?_, ?_, ?_, ?_, ?_⟩
  · rw [harr]; simp
  · rw [hcell, getD_append_lt _ _ _ _ hi, Store.cell]
  · rw [htp]; simp
  · rw [htape, getD_append_lt _ _ _ _ ht, Store.tape]
    exact ⟨rfl, rfl, rfl⟩
  · rw [hops]; simp
  · rw [hopsOf, getD_append_lt _ _ _ _ ho, Store.opsOf]
  · rw [htp]; simp
  · rw [hops]; simp
  · rw [harr]; simp
  · rw [show (newLeaf st d xs).2 = st.tapes.length from rfl, htape, getD_concat_self]
  · rw [hopsOf, getD_concat_self]
  · rw [hcell, getD_concat_self]

theorem getD_set_self {α : Type} (l : List α) (i : Nat) (v d : α) (h : i < l.length) :
    (l.set i v).getD i d = v := by
  simp [List.getD, List.getElem?_set_self, h]

theorem getD_set_ne {α : Type} (l : List α) (i n : Nat) (v d : α) (h : i ≠ n) :
    (l.set i v).getD n d = l.getD n d := by
  simp [List.getD, List.getElem?_set_ne h]

theorem opsOf_mk (a : List CVal) (b : List (List Entry)) (c : List DeforestedArray) (o : Nat) :
    (Store.mk a b c).opsOf o = b.getD o [] := rfl

theorem tape_mk (a : List CVal) (b : List (List Entry)) (c : List DeforestedArray) (t : Nat) :
    (Store.mk a b c).tape t = c.getD t ⟨none, 0, 0, 0⟩ := rfl

theorem cell_mk (a : List CVal) (b : List (List Entry)) (c : List DeforestedArray) (i : Nat) :
    (Store.mk a b c).cell i = a.getD i (.arrv .int []) := rfl

theorem getD_concat_of_length {α : Type} (l : List α) (x d : α) (n : Nat)
    (h : l.length = n) : (l ++ [x]).getD n d = x := by
  subst h
  exact getD_concat_self _ _ _

/-- Everything `__update_binary__` does when the handle is at the tip
of its backing list (the in-place shared-append branch). -/
theorem updateBinary_spec (st : Store) (selfT : Nat) (other : BOperand) (s : Sym) (rev : Bool)
    (htip : (st.tape selfT).index = (st.opsOf (st.tape selfT).opsId).length)
    (hoid : (st.tape selfT).opsId < st.opsLists.length) :
    (updateBinary st selfT other s rev).2 = st.tapes.length ∧
    (updateBinary st selfT other s rev).1.arrays = st.arrays ∧
    (updateBinary st selfT other s rev).1.opsLists.length = st.opsLists.length ∧
    (updateBinary st selfT other s rev).1.tapes.length = st.tapes.length + 1 ∧
    (updateBinary st selfT other s rev).1.tape st.tapes.length
      = ⟨none, 0, (st.tape selfT).opsId, (st.tape selfT).index + 2⟩ ∧
    (updateBinary st selfT other s rev).1.opsOf (st.tape selfT).opsId
      = st.opsOf (st.tape selfT).opsId
        ++ [(match other with
             | .tapeOp t => Entry.track t
             | .constOp d x => Entry.varConst d x),
            (if rev then Entry.binOpR s else Entry.binOp s)] ∧
    (∀ o, o ≠ (st.tape selfT).opsId →
      (updateBinary st selfT other s rev).1.opsOf o = st.opsOf o) ∧
    (∀ u, u < st.tapes.length →
      (updateBinary st selfT other s rev).1.tape u
        = (match other with
           | .tapeOp t =>
             if u = t then { st.tape u with refcount := (st.tape u).refcount + 1 }
             else st.tape u
           | .constOp _ _ => st.tape u)) := by
  refine ⟨?_, ?_, ?_, ?_, ?_, ?_, ?_, ?_⟩
  case refine_1 =>
    cases other <;>
      simp [updateBinary, htip, Store.setOps, Store.bumpRef]
  case refine_2 =>
    cases other <;>
      simp [updateBinary, htip, Store.setOps, Store.bumpRef]
  case refine_3 =>
    cases other <;>
      simp [updateBinary, htip, Store.setOps, Store.bumpRef]
  case refine_4 =>
    cases other <;>
      simp [updateBinary, htip, Store.setOps, Store.bumpRef]
  case refine_5 =>
    cases other with
    | tapeOp t =>
      simp only [updateBinary]
      rw [if_pos htip]
      simp only [tape_mk]
      exact getD_concat_of_length _ _ _ _ (by simp [Store.bumpRef, Store.setOps])
    | constOp dd xx =>
      simp only [updateBinary]
      rw [if_pos htip]
      simp only [tape_mk]
      exact getD_concat_of_length _ _ _ _ (by simp [Store.setOps])
  case refine_6 =>
    cases other with
    | tapeOp t =>
      simp only [updateBinary]
      rw [if_pos htip]
      simp only [opsOf_mk, opsLists_bumpRef]
      simp only [Store.setOps]
      rw [getD_set_self _ _ _ _ hoid]
    | constOp dd xx =>
      simp only [updateBinary]
      rw [if_pos htip]
      simp only [opsOf_mk]
      simp only [Store.setOps]
      rw [getD_set_self _ _ _ _ hoid]
  case refine_7 =>
    intro o ho
    cases other with
    | tapeOp t =>
      simp only [updateBinary]
      rw [if_pos htip]
      simp only [opsOf_mk, opsLists_bumpRef]
      simp only [Store.setOps]
      rw [getD_set_ne _ _ _ _ _ (fun h => ho h.symm)]
      rfl
    | constOp dd xx =>
      simp only [updateBinary]
      rw [if_pos htip]
      simp only [opsOf_mk]
      simp only [Store.setOps]
      rw [getD_set_ne _ _ _ _ _ (fun h => ho h.symm)]
      rfl
  case refine_8 =>
    intro u hu
    cases other with
    | tapeOp t =>
      simp only [updateBinary]
      rw [if_pos htip]
      simp only [tape_mk]
      rw [getD_append_lt _ _ _ _ (by simp [Store.bumpRef, Store.setOps]; exact hu)]
      simp only [Store.bumpRef, Store.setOps]
      by_cases hut : u = t
      · subst hut
        rw [getD_set_self _ _ _ _ (by simpa using hu)]
        simp only []
        rw [show (Store.mk st.arrays (st.opsLists.set (st.tape selfT).opsId
            (st.opsOf (st.tape selfT).opsId
              ++ [Entry.track u, if rev = true then Entry.binOpR s else Entry.binOp s]))
            st.tapes).tape u = st.tape u from tape_congr (by simp) u]
        simp
      · rw [getD_set_ne _ _ _ _ _ (fun h => hut h.symm)]
        simp [hut, Store.tape]
    | constOp dd xx =>
      simp only [updateBinary]
      rw [if_pos htip]
      simp only [tape_mk]
      rw [getD_append_lt _ _ _ _ (by simp [Store.setOps]; exact hu)]
      simp [Store.setOps, Store.tape]

/-- A tip-branch `__update_binary__` is a `PrefExt` of the store. -/
theorem updateBinary_prefExt (st : Store) (selfT : Nat) (other : BOperand) (s : Sym)
    (rev : Bool)
    (htip : (st.tape selfT).index = (st.opsOf (st.tape selfT).opsId).length)
    (hoid : (st.tape selfT).opsId < st.opsLists.length) :
    PrefExt st (updateBinary st selfT other s rev).1 := by
  obtain ⟨u1, u2, u3, u4, u5, u6, u7, u8⟩ := updateBinary_spec st selfT other s rev htip hoid
  refine ⟨by rw [u2], fun i _ => cell_congr u2 i, by rw [u4]; omega, fun t ht => ?_,
    by rw [u3], fun o ho => ?_⟩
  · rw [u8 t ht]
    cases other with
    | tapeOp tt =>
      by_cases htt : t = tt <;> simp [htt]
    | constOp dd xx => exact ⟨rfl, rfl, rfl⟩
  · by_cases hoo : o = (st.tape selfT).opsId
    · subst hoo
      rw [u6]
      exact List.prefix_append _ _
    · rw [u7 o hoo]

/-- A tip-branch `__update_binary__` on a handle whose backing list was
created after `st` leaves everything of `st` intact. -/
theorem BuildExt.updateStep {st stM : Store} (h : BuildExt st stM) (selfT : Nat)
    (other : BOperand) (s : Sym) (rev : Bool)
    (htip : (stM.tape selfT).index = (stM.opsOf (stM.tape selfT).opsId).length)
    (hoid : (stM.tape selfT).opsId < stM.opsLists.length)
    (hge : st.opsLists.length ≤ (stM.tape selfT).opsId) :
    BuildExt st (updateBinary stM selfT other s rev).1 := by
  obtain ⟨u1, u2, u3, u4, u5, u6, u7, u8⟩ := updateBinary_spec stM selfT other s rev htip hoid
  obtain ⟨a, b, c, d, e, f⟩ := h
  refine ⟨by rw [u2]; exact a, fun i hi => ?_, by rw [u4]; omega, fun t ht => ?_,
    by rw [u3]; exact e, fun o ho => ?_⟩
  · rw [cell_congr u2 i]
    exact b i hi
  · have ht' : t < stM.tapes.length := Nat.lt_of_lt_of_le ht c
    rw [u8 t ht']
    obtain ⟨x, y, z⟩ := d t ht
    cases other with
    | tapeOp tt =>
      by_cases htt : t = tt
      · subst htt
        simp
        exact ⟨x, y, z⟩
      · simp [htt]
        exact ⟨x, y, z⟩
    | constOp dd xx => exact ⟨x, y, z⟩
  · have hne : o ≠ (stM.tape selfT).opsId := by omega
    rw [u7 o hne]
    exact f o ho

/-- Correctness of `buildE`: the built handle is fresh, sits at the tip
of a backing list created during the build, represents the expression,
and the build leaves the pre-existing store intact. -/
theorem buildE_spec (e : Expr) : ∀ (st : Store),
    BuildExt st (buildE st e).1 ∧
    (buildE st e).2 < (buildE st e).1.tapes.length ∧
    st.opsLists.length ≤ ((buildE st e).1.tape (buildE st e).2).opsId ∧
    ((buildE st e).1.tape (buildE st e).2).opsId < (buildE st e).1.opsLists.length ∧
    ((buildE st e).1.tape (buildE st e).2).index
      = ((buildE st e).1.opsOf ((buildE st e).1.tape (buildE st e).2).opsId).length ∧
    TapeFor (buildE st e).1 (buildE st e).2 e := by
  induction e with
  | leaf d xs =>
    intro st
    obtain ⟨hb, h2, hlt, hlo, hla, htp, hof, hc⟩ := newLeaf_build st d xs
    rw [show buildE st (.leaf d xs) = newLeaf st d xs from rfl]
    rw [h2] at htp ⊢
    refine ⟨hb, by omega, ?_, ?_, ?_, ?_⟩
    · rw [htp]
    · rw [htp]
      show st.opsLists.length < (newLeaf st d xs).1.opsLists.length
      omega
    · rw [htp]
      show (1 : Nat) = ((newLeaf st d xs).1.opsOf st.opsLists.length).length
      rw [hof]
      simp
    · refine ⟨by omega, ?_, ?_, ?_⟩
      · rw [htp]
        show st.opsLists.length < (newLeaf st d xs).1.opsLists.length
        omega
      · rw [htp]
        show (1 : Nat) ≤ ((newLeaf st d xs).1.opsOf st.opsLists.length).length
        rw [hof]
        simp
      · rw [htp]
        show EntriesFor (newLeaf st d xs).1
          (((newLeaf st d xs).1.opsOf st.opsLists.length).take 1) (.leaf d xs)
        rw [hof]
        simp only [List.take_succ_cons, List.take_zero]
        exact .leaf st.arrays.length d xs (by omega) hc
  | binTT s l r ihl ihr =>
    intro st
    obtain ⟨B1, htl, hge1, hlt1, htip1, TF1⟩ := ihl st
    obtain ⟨B2, htr, hge2, hlt2, htip2, TF2⟩ := ihr (buildE st l).1
    set pl := buildE st l with hpl
    set pr := buildE pl.1 r with hpr
    have heq : buildE st (.binTT s l r) = updateBinary pr.1 pl.2 (.tapeOp pr.2) s false := rfl
    have htl' : pl.2 < pr.1.tapes.length := Nat.lt_of_lt_of_le htl B2.2.2.1
    have hfields := B2.2.2.2.1 pl.2 htl
    have hof_eq : pr.1.opsOf (pl.1.tape pl.2).opsId = pl.1.opsOf (pl.1.tape pl.2).opsId :=
      B2.2.2.2.2.2 _ hlt1
    have htipM : (pr.1.tape pl.2).index = (pr.1.opsOf (pr.1.tape pl.2).opsId).length := by
      rw [hfields.1, hfields.2.1, hof_eq]
      exact htip1
    have hoidM : (pr.1.tape pl.2).opsId < pr.1.opsLists.length := by
      rw [hfields.1]
      exact Nat.lt_of_lt_of_le hlt1 B2.2.2.2.2.1
    obtain ⟨u1, u2, u3, u4, u5, u6, u7, u8⟩ :=
      updateBinary_spec pr.1 pl.2 (.tapeOp pr.2) s false htipM hoidM
    have u6' : (updateBinary pr.1 pl.2 (.tapeOp pr.2) s false).1.opsOf (pr.1.tape pl.2).opsId
        = pr.1.opsOf (pr.1.tape pl.2).opsId ++ [.track pr.2, .binOp s] := by
      simpa using u6
    have hPE : PrefExt pr.1 (updateBinary pr.1 pl.2 (.tapeOp pr.2) s false).1 :=
      updateBinary_prefExt pr.1 pl.2 (.tapeOp pr.2) s false htipM hoidM
    have hgeM : st.opsLists.length ≤ (pr.1.tape pl.2).opsId := by
      rw [hfields.1]
      exact hge1
    have hEl : EntriesFor (updateBinary pr.1 pl.2 (.tapeOp pr.2) s false).1
        (pr.1.opsOf (pr.1.tape pl.2).opsId) l := by
      have h0 : EntriesFor pl.1 (pl.1.opsOf (pl.1.tape pl.2).opsId) l := by
        have h1 := TF1.2.2.2
        rw [List.take_of_length_le (Nat.le_of_eq htip1.symm)] at h1
        exact h1
      rw [hfields.1, hof_eq]
      exact entriesFor_mono hPE (entriesFor_mono (buildExt_toPrefExt B2) h0)
    have hTFr : TapeFor (updateBinary pr.1 pl.2 (.tapeOp pr.2) s false).1 pr.2 r :=
      tapeFor_mono hPE TF2
    rw [heq, u1]
    refine ⟨(buildExt_trans B1 B2).updateStep pl.2 (.tapeOp pr.2) s false htipM hoidM hgeM,
      by rw [u4]; omega, ?_, ?_, ?_, ?_⟩
    · rw [u5]
      exact hgeM
    · rw [u5]
      show (pr.1.tape pl.2).opsId
        < (updateBinary pr.1 pl.2 (.tapeOp pr.2) s false).1.opsLists.length
      rw [u3]
      exact hoidM
    · rw [u5]
      show (pr.1.tape pl.2).index + 2
        = ((updateBinary pr.1 pl.2 (.tapeOp pr.2) s false).1.opsOf
            (pr.1.tape pl.2).opsId).length
      rw [u6', List.length_append, htipM]
      rfl
    · refine ⟨by rw [u4]; omega, ?_, ?_, ?_⟩
      · rw [u5]
        show (pr.1.tape pl.2).opsId
          < (updateBinary pr.1 pl.2 (.tapeOp pr.2) s false).1.opsLists.length
        rw [u3]
        exact hoidM
      · rw [u5]
        show (pr.1.tape pl.2).index + 2
          ≤ ((updateBinary pr.1 pl.2 (.tapeOp pr.2) s false).1.opsOf
              (pr.1.tape pl.2).opsId).length
        rw [u6', List.length_append, htipM]
        simp
      · rw [u5]
        show EntriesFor (updateBinary pr.1 pl.2 (.tapeOp pr.2) s false).1
          (((updateBinary pr.1 pl.2 (.tapeOp pr.2) s false).1.opsOf
              (pr.1.tape pl.2).opsId).take ((pr.1.tape pl.2).index + 2))
          (.binTT s l r)
        rw [u6', List.take_of_length_le (by rw [List.length_append, htipM]; simp)]
        exact .binTT _ l pr.2 r s hEl hTFr.1 hTFr.2.1 hTFr.2.2.1 hTFr.2.2.2
  | binTC s l d x ihl =>
    intro st
    obtain ⟨B1, htl, hge1, hlt1, htip1, TF1⟩ := ihl st
    set pl := buildE st l with hpl
    have heq : buildE st (.binTC s l d x) = updateBinary pl.1 pl.2 (.constOp d x) s false := rfl
    obtain ⟨u1, u2, u3, u4, u5, u6, u7, u8⟩ :=
      updateBinary_spec pl.1 pl.2 (.constOp d x) s false htip1 hlt1
    have u6' : (updateBinary pl.1 pl.2 (.constOp d x) s false).1.opsOf (pl.1.tape pl.2).opsId
        = pl.1.opsOf (pl.1.tape pl.2).opsId ++ [.varConst d x, .binOp s] := by
      simpa using u6
    have hPE : PrefExt pl.1 (updateBinary pl.1 pl.2 (.constOp d x) s false).1 :=
      updateBinary_prefExt pl.1 pl.2 (.constOp d x) s false htip1 hlt1
    have hEl : EntriesFor (updateBinary pl.1 pl.2 (.constOp d x) s false).1
        (pl.1.opsOf (pl.1.tape pl.2).opsId) l := by
      have h0 : EntriesFor pl.1 (pl.1.opsOf (pl.1.tape pl.2).opsId) l := by
        have h1 := TF1.2.2.2
        rw [List.take_of_length_le (Nat.le_of_eq htip1.symm)] at h1
        exact h1
      exact entriesFor_mono hPE h0
    rw [heq, u1]
    refine ⟨B1.updateStep pl.2 (.constOp d x) s false htip1 hlt1 hge1,
      by rw [u4]; omega, ?_, ?_, ?_, ?_⟩
    · rw [u5]
      exact hge1
    · rw [u5]
      show (pl.1.tape pl.2).opsId
        < (updateBinary pl.1 pl.2 (.constOp d x) s false).1.opsLists.length
      rw [u3]
      exact hlt1
    · rw [u5]
      show (pl.1.tape pl.2).index + 2
        = ((updateBinary pl.1 pl.2 (.constOp d x) s false).1.opsOf
            (pl.1.tape pl.2).opsId).length
      rw [u6', List.length_append, htip1]
      rfl
    · refine ⟨by rw [u4]; omega, ?_, ?_, ?_⟩
      · rw [u5]
        show (pl.1.tape pl.2).opsId
          < (updateBinary pl.1 pl.2 (.constOp d x) s false).1.opsLists.length
        rw [u3]
        exact hlt1
      · rw [u5]
        show (pl.1.tape pl.2).index + 2
          ≤ ((updateBinary pl.1 pl.2 (.constOp d x) s false).1.opsOf
              (pl.1.tape pl.2).opsId).length
        rw [u6', List.length_append, htip1]
        simp
      · rw [u5]
        show EntriesFor (updateBinary pl.1 pl.2 (.constOp d x) s false).1
          (((updateBinary pl.1 pl.2 (.constOp d x) s false).1.opsOf
              (pl.1.tape pl.2).opsId).take ((pl.1.tape pl.2).index + 2))
          (.binTC s l d x)
        rw [u6', List.take_of_length_le (by rw [List.length_append, htip1]; simp)]
        exact .binTC _ l s d x hEl
  | binCT s d x r ihr =>
    intro st
    obtain ⟨B1, htl, hge1, hlt1, htip1, TF1⟩ := ihr st
    set pr := buildE st r with hpr
    have heq : buildE st (.binCT s d x r) = updateBinary pr.1 pr.2 (.constOp d x) s true := rfl
    obtain ⟨u1, u2, u3, u4, u5, u6, u7, u8⟩ :=
      updateBinary_spec pr.1 pr.2 (.constOp d x) s true htip1 hlt1
    have u6' : (updateBinary pr.1 pr.2 (.constOp d x) s true).1.opsOf (pr.1.tape pr.2).opsId
        = pr.1.opsOf (pr.1.tape pr.2).opsId ++ [.varConst d x, .binOpR s] := by
      simpa using u6
    have hPE : PrefExt pr.1 (updateBinary pr.1 pr.2 (.constOp d x) s true).1 :=
      updateBinary_prefExt pr.1 pr.2 (.constOp d x) s true htip1 hlt1
    have hEr : EntriesFor (updateBinary pr.1 pr.2 (.constOp d x) s true).1
        (pr.1.opsOf (pr.1.tape pr.2).opsId) r := by
      have h0 : EntriesFor pr.1 (pr.1.opsOf (pr.1.tape pr.2).opsId) r := by
        have h1 := TF1.2.2.2
        rw [List.take_of_length_le (Nat.le_of_eq htip1.symm)] at h1
        exact h1
      exact entriesFor_mono hPE h0
    rw [heq, u1]
    refine ⟨B1.updateStep pr.2 (.constOp d x) s true htip1 hlt1 hge1,
      by rw [u4]; omega, ?_, ?_, ?_, ?_⟩
    · rw [u5]
      exact hge1
    · rw [u5]
      show (pr.1.tape pr.2).opsId
        < (updateBinary pr.1 pr.2 (.constOp d x) s true).1.opsLists.length
      rw [u3]
      exact hlt1
    · rw [u5]
      show (pr.1.tape pr.2).index + 2
        = ((updateBinary pr.1 pr.2 (.constOp d x) s true).1.opsOf
            (pr.1.tape pr.2).opsId).length
      rw [u6', List.length_append, htip1]
      rfl
    · refine ⟨by rw [u4]; omega, ?_, ?_, ?_⟩
      · rw [u5]
        show (pr.1.tape pr.2).opsId
          < (updateBinary pr.1 pr.2 (.constOp d x) s true).1.opsLists.length
        rw [u3]
        exact hlt1
      · rw [u5]
        show (pr.1.tape pr.2).index + 2
          ≤ ((updateBinary pr.1 pr.2 (.constOp d x) s true).1.opsOf
              (pr.1.tape pr.2).opsId).length
        rw [u6', List.length_append, htip1]
        simp
      · rw [u5]
        show EntriesFor (updateBinary pr.1 pr.2 (.constOp d x) s true).1
          (((updateBinary pr.1 pr.2 (.constOp d x) s true).1.opsOf
              (pr.1.tape pr.2).opsId).take ((pr.1.tape pr.2).index + 2))
          (.binCT s d x r)
        rw [u6', List.take_of_length_le (by rw [List.length_append, htip1]; simp)]
        exact .binCT _ r s d x hEr

/-! ### Value-level lemmas -/

theorem withDtype_vals (d : DType) (v : CVal) : (v.withDtype d).vals = v.vals := by
  cases v <;> rfl

theorem withDtype_isArr (d : DType) (v : CVal) : (v.withDtype d).isArr = v.isArr := by
  cases v <;> rfl

theorem bin_isArr (s : Sym) (a b : CVal) :
    (bin_op_to_np s a b).isArr = (a.isArr || b.isArr) := by
  cases a <;> cases b <;> rfl

theorem bin_vals_congr (s : Sym) {a a' b b' : CVal} (ha : a.isArr = a'.isArr)
    (hva : a.vals = a'.vals) (hb : b.isArr = b'.isArr) (hvb : b.vals = b'.vals) :
    (bin_op_to_np s a b).vals = (bin_op_to_np s a' b').vals := by
  cases a <;> cases a' <;> cases b <;> cases b' <;>
    simp_all [CVal.isArr, CVal.vals, bin_op_to_np]

theorem denote_isArr (e : Expr) : (denote e).isArr = true := by
  induction e with
  | leaf d xs => rfl
  | binTT s l r ihl ihr => simp [denote, bin_isArr, ihl]
  | binTC s l d x ihl => simp [denote, bin_isArr, ihl]
  | binCT s d x r ihr => simp [denote, bin_isArr, ihr]

/-! ### Walk equations -/

theorem walk_nil_cons (fuel : Nat) (st : Store) (v : SVal) (stack : List SVal)
    (muts : List Bool) (imm : List Nat) :
    walk fuel st [] (v :: stack) muts imm = .ok (st, v) := by
  simp [walk]

theorem walk_varArr (f : Nat) (st : Store) (a : Nat) (rest : List Entry)
    (stack : List SVal) (muts : List Bool) (imm : List Nat) :
    walk (f + 1) st (.varArr a :: rest) stack muts imm
      = walk f st rest (.arrS a :: stack) (false :: muts) imm := by
  simp [walk]

theorem walk_varConst (f : Nat) (st : Store) (d : DType) (x : ℚ) (rest : List Entry)
    (stack : List SVal) (muts : List Bool) (imm : List Nat) :
    walk (f + 1) st (.varConst d x :: rest) stack muts imm
      = walk f st rest (.sclS d x :: stack) (false :: muts) imm := by
  simp [walk]

theorem walk_track (f : Nat) (st : Store) (t : Nat) (rest : List Entry)
    (stack : List SVal) (muts : List Bool) (imm : List Nat) :
    walk (f + 1) st (.track t :: rest) stack muts imm
      = walk f st rest (.tapeS t :: stack) (decide (t ∉ imm) :: muts) imm := by
  simp [walk]

theorem walk_funcOp (f : Nat) (st : Store) (nm : String) (rest : List Entry)
    (stack : List SVal) (muts : List Bool) (imm : List Nat) :
    walk (f + 1) st (.funcOp nm :: rest) stack muts imm = .error .notImplemented := by
  simp [walk]

theorem casesOn_ok (p : Store × SVal)
    (e : EvalErr → Except EvalErr (Store × SVal))
    (k : Store × SVal → Except EvalErr (Store × SVal)) :
    (Except.casesOn (Except.ok p) e k : Except EvalErr (Store × SVal)) = k p := rfl

theorem binOp_unfold (f : Nat) (st : Store) (s : Sym) (rest : List Entry) (v1 v2 : SVal)
    (stack : List SVal) (m1 m2 : Bool) (muts : List Bool) (imm : List Nat) :
    walk (f + 1) st (.binOp s :: rest) (v1 :: v2 :: stack) (m1 :: m2 :: muts) imm
      = (resolveOp f st v2).casesOn (fun err => .error err)
          (fun pl => (resolveOp f pl.1 v1).casesOn (fun err => .error err)
            (fun pr => walk f (binApply pr.1 s pl.2 m2 pr.2 m1).1 rest
              ((binApply pr.1 s pl.2 m2 pr.2 m1).2 :: stack) (true :: muts) imm)) := by
  cases v2 <;> cases v1 <;> cases f <;> rfl

theorem binOpR_unfold (f : Nat) (st : Store) (s : Sym) (rest : List Entry) (v1 v2 : SVal)
    (stack : List SVal) (m1 m2 : Bool) (muts : List Bool) (imm : List Nat) :
    walk (f + 1) st (.binOpR s :: rest) (v1 :: v2 :: stack) (m1 :: m2 :: muts) imm
      = (resolveOp f st v1).casesOn (fun err => .error err)
          (fun pl => (resolveOp f pl.1 v2).casesOn (fun err => .error err)
            (fun pr => walk f (binApply pr.1 s pl.2 m1 pr.2 m2).1 rest
              ((binApply pr.1 s pl.2 m1 pr.2 m2).2 :: stack) (true :: muts) imm)) := by
  cases v1 <;> cases v2 <;> cases f <;> rfl

theorem binStep_eq0 (f : Nat) (st : Store) (s : Sym) (opl : SVal) (ml : Bool) (opr : SVal)
    (mr : Bool) (rest : List Entry) (stack : List SVal) (muts : List Bool) (imm : List Nat) :
    binStep f st s opl ml opr mr rest stack muts imm
      = match resolveOp f st opl with
        | .error err => .error err
        | .ok (st1, lslot) =>
          match resolveOp f st1 opr with
          | .error err => .error err
          | .ok (st2, rslot) =>
            walk f (binApply st2 s lslot ml rslot mr).1 rest
              ((binApply st2 s lslot ml rslot mr).2 :: stack) (true :: muts) imm := by
  simp [binStep]

theorem walk_binOp (f : Nat) (st : Store) (s : Sym) (rest : List Entry) (v1 v2 : SVal)
    (stack : List SVal) (m1 m2 : Bool) (muts : List Bool) (imm : List Nat) :
    walk (f + 1) st (.binOp s :: rest) (v1 :: v2 :: stack) (m1 :: m2 :: muts) imm
      = binStep f st s v2 m2 v1 m1 rest stack muts imm := by
  rw [binOp_unfold, binStep_eq0]
  cases hl : resolveOp f st v2 with
  | error err => rfl
  | ok pl =>
    obtain ⟨st1, lv⟩ := pl
    simp only [casesOn_ok]
    cases hr : resolveOp f st1 v1 with
    | error err => rfl
    | ok pr =>
      obtain ⟨st2, rv⟩ := pr
      simp only [casesOn_ok]

theorem walk_binOpR (f : Nat) (st : Store) (s : Sym) (rest : List Entry) (v1 v2 : SVal)
    (stack : List SVal) (m1 m2 : Bool) (muts : List Bool) (imm : List Nat) :
    walk (f + 1) st (.binOpR s :: rest) (v1 :: v2 :: stack) (m1 :: m2 :: muts) imm
      = binStep f st s v1 m1 v2 m2 rest stack muts imm := by
  rw [binOpR_unfold, binStep_eq0]
  cases hl : resolveOp f st v1 with
  | error err => rfl
  | ok pl =>
    obtain ⟨st1, lv⟩ := pl
    simp only [casesOn_ok]
    cases hr : resolveOp f st1 v2 with
    | error err => rfl
    | ok pr =>
      obtain ⟨st2, rv⟩ := pr
      simp only [casesOn_ok]

theorem resolveOp_arrS (f : Nat) (st : Store) (i : Nat) :
    resolveOp f st (.arrS i) = .ok (st, .arrS i) := by
  simp [resolveOp]

theorem resolveOp_sclS (f : Nat) (st : Store) (d : DType) (x : ℚ) :
    resolveOp f st (.sclS d x) = .ok (st, .sclS d x) := by
  simp [resolveOp]

theorem resolveOp_tapeS (f : Nat) (st : Store) (t : Nat) :
    resolveOp (f + 1) st (.tapeS t) = evaluate f st t := by
  simp [resolveOp, evaluate]

theorem binStep_eq (f : Nat) (st : Store) (s : Sym) (opl : SVal) (ml : Bool) (opr : SVal)
    (mr : Bool) (rest : List Entry) (stack : List SVal) (muts : List Bool) (imm : List Nat) :
    binStep f st s opl ml opr mr rest stack muts imm
      = match resolveOp f st opl with
        | .error err => .error err
        | .ok (st1, lslot) =>
          match resolveOp f st1 opr with
          | .error err => .error err
          | .ok (st2, rslot) =>
            walk f (binApply st2 s lslot ml rslot mr).1 rest
              ((binApply st2 s lslot ml rslot mr).2 :: stack) (true :: muts) imm := by
  simp [binStep]

theorem track_mem_tracksOf {l : List Entry} {t : Nat} (h : Entry.track t ∈ l) :
    t ∈ tracksOf l := by
  rw [tracksOf, List.mem_filterMap]
  exact ⟨.track t, h, rfl⟩

theorem tracks_take {l : List Entry} {n t : Nat} (h : Entry.track t ∈ l.take n) :
    t ∈ tracksOf l :=
  track_mem_tracksOf (List.mem_of_mem_take h)

/-! ### Specification of the pure binary step -/

/-- Store evolution across part of one evaluation, preserving only the
cells below `n` (the evaluation's entry store size). -/
def EvalExtN (n : Nat) (st st' : Store) : Prop :=
  st'.opsLists = st.opsLists ∧ st'.tapes = st.tapes ∧
  st.arrays.length ≤ st'.arrays.length ∧
  ∀ i, i < n → st'.cell i = st.cell i

theorem EvalExt.compN {st st1 st2 : Store} (h1 : EvalExt st st1)
    (h2 : EvalExtN st.arrays.length st1 st2) : EvalExt st st2 := by
  obtain ⟨a1, b1, c1, d1⟩ := h1
  obtain ⟨a2, b2, c2, d2⟩ := h2
  exact ⟨a2.trans a1, b2.trans b1, Nat.le_trans c1 c2,
    fun i hi => (d2 i hi).trans (d1 i hi)⟩

theorem pushResult_spec (st : Store) (res : CVal) (hres : res.isArr = true) (n : Nat)
    (hn : n ≤ st.arrays.length) :
    ∃ j, (pushResult st res).2 = .arrS j ∧ EvalExtN n st (pushResult st res).1 ∧
      n ≤ j ∧ j < (pushResult st res).1.arrays.length ∧
      ((pushResult st res).1.cell j).isArr = true ∧
      ((pushResult st res).1.cell j).vals = res.vals := by
  cases res with
  | scl d x => simp [CVal.isArr] at hres
  | arrv d xs =>
    refine ⟨st.arrays.length, rfl, ⟨rfl, rfl, by simp [pushResult], fun i hi => ?_⟩,
      hn, by simp [pushResult], ?_, ?_⟩
    · exact cell_alloc_old st _ i (by omega)
    · rw [show (pushResult st (.arrv d xs)).1.cell st.arrays.length
          = (st.alloc (.arrv d xs)).1.cell (st.alloc (.arrv d xs)).2 from rfl,
        cell_alloc_new]
      rfl
    · rw [show (pushResult st (.arrv d xs)).1.cell st.arrays.length
          = (st.alloc (.arrv d xs)).1.cell (st.alloc (.arrv d xs)).2 from rfl,
        cell_alloc_new]

theorem tryInplace_some_spec (st : Store) (s : Sym) (i : Nat) (lv rv : CVal) (n : Nat)
    (hni : n ≤ i) (hi : i < st.arrays.length) {q : Store × SVal}
    (h : tryInplace st s (.arrS i) lv rv = some q) :
    q.2 = .arrS i ∧ EvalExtN n st q.1 ∧ i < q.1.arrays.length ∧
    (q.1.cell i).isArr = true ∧ (q.1.cell i).vals = (bin_op_to_np s lv rv).vals := by
  rw [tryInplace] at h
  split at h
  case isTrue hc =>
    injection h with hq
    subst hq
    have hcell : (st.setCell i ((bin_op_to_np s lv rv).withDtype (st.cell i).dtype)).cell i
        = (bin_op_to_np s lv rv).withDtype (st.cell i).dtype := cell_setCell_self st i _ hi
    refine ⟨rfl, ⟨rfl, rfl, by simp, fun u hu => cell_setCell_ne st i u _ (by omega)⟩,
      by simp; omega, ?_, ?_⟩
    · rw [hcell, withDtype_isArr]
      have := hc
      simp only [Bool.and_eq_true] at this
      exact this.1.2
    · rw [hcell, withDtype_vals]
  case isFalse hc =>
    exact absurd h (by simp)

theorem binApply_spec (st : Store) (s : Sym) (lslot rslot : SVal) (ml mr : Bool) (n : Nat)
    (hn : n ≤ st.arrays.length)
    (hml : ml = true → ∃ i, lslot = .arrS i ∧ n ≤ i ∧ i < st.arrays.length)
    (hmr : mr = true → ∃ i, rslot = .arrS i ∧ n ≤ i ∧ i < st.arrays.length)
    (harr : ((lslot.toCVal st).isArr || (rslot.toCVal st).isArr) = true) :
    ∃ j, (binApply st s lslot ml rslot mr).2 = .arrS j ∧
      EvalExtN n st (binApply st s lslot ml rslot mr).1 ∧
      n ≤ j ∧ j < (binApply st s lslot ml rslot mr).1.arrays.length ∧
      ((binApply st s lslot ml rslot mr).1.cell j).isArr = true ∧
      ((binApply st s lslot ml rslot mr).1.cell j).vals
        = (bin_op_to_np s (lslot.toCVal st) (rslot.toCVal st)).vals := by
  have hres : (bin_op_to_np s (lslot.toCVal st) (rslot.toCVal st)).isArr = true := by
    rw [bin_isArr]
    exact harr
  simp only [binApply]
  split
  case isTrue h1 =>
    have hml' : ml = true := by
      simp only [Bool.and_eq_true] at h1
      exact h1.1
    obtain ⟨i, hls, hni, hilt⟩ := hml hml'
    subst hls
    cases htry : tryInplace st s (.arrS i) ((SVal.arrS i).toCVal st) (rslot.toCVal st) with
    | some q =>
      obtain ⟨ha2, hb2, hc2, hd2, he2⟩ :=
        tryInplace_some_spec st s i _ _ n hni hilt htry
      exact ⟨i, ha2, hb2, hni, hc2, hd2, he2⟩
    | none =>
      exact pushResult_spec st _ hres n hn
  case isFalse h1 =>
    split
    case isTrue h2 =>
      have hmr' : mr = true := by
        simp only [Bool.and_eq_true] at h2
        exact h2.1
      obtain ⟨i, hrs, hni, hilt⟩ := hmr hmr'
      subst hrs
      cases htry : tryInplace st s (.arrS i) (lslot.toCVal st) ((SVal.arrS i).toCVal st) with
      | some q =>
        obtain ⟨ha2, hb2, hc2, hd2, he2⟩ :=
          tryInplace_some_spec st s i _ _ n hni hilt htry
        exact ⟨i, ha2, hb2, hni, hc2, hd2, he2⟩
      | none =>
        exact pushResult_spec st _ hres n hn
    case isFalse h2 =>
      exact pushResult_spec st _ hres n hn

/-! ### Main correctness lemma for the evaluator -/

/-- Walking the entry segment a build of `e` laid down pushes one slot
holding (numerically) the direct evaluation of `e`; the store only
grows, and every cell existing at entry keeps its value. -/
theorem walk_seg (e : Expr) : ∀ (st : Store) (es : List Entry),
    EntriesFor st es e →
    ∀ (imm : List Nat), (∀ t, Entry.track t ∈ es → t ∈ imm) →
    ∃ (st' : Store) (j : Nat) (mv : Bool),
      EvalExt st st' ∧
      j < st'.arrays.length ∧
      (mv = true → st.arrays.length ≤ j) ∧
      (st'.cell j).isArr = true ∧
      (st'.cell j).vals = (denote e).vals ∧
      ∀ (rest : List Entry) (stack : List SVal) (muts : List Bool) (k : Nat),
        needH e ≤ k →
        walk (entsLen e + k) st (es ++ rest) stack muts imm
          = walk k st' rest (.arrS j :: stack) (mv :: muts) imm := by
  induction e with
  | leaf d xs =>
    intro st es hEF imm hTr
    cases hEF with
    | leaf a d2 xs2 ha hv =>
      refine ⟨st, a, false, evalExt_refl st, ha, by simp, by rw [hv]; rfl, by rw [hv]; rfl, ?_⟩
      intro rest stack muts k hk
      rw [show entsLen (Expr.leaf d xs) + k = k + 1 from by rw [entsLen]; omega]
      simp only [List.cons_append, List.nil_append]
      exact walk_varArr k st a rest stack muts imm
  | binTT s l r ihl ihr =>
    intro st es hEF imm hTr
    cases hEF with
    | binTT esl l2 tr r2 s2 hl htr hoid hix hr =>
      have hTrl : ∀ t, Entry.track t ∈ esl → t ∈ imm := by
        intro t ht
        exact hTr t (by simp [ht])
      obtain ⟨st1, j1, mv1, hE1, hj1lt, hj1ge, hj1arr, hj1vals, heq1⟩ := ihl st esl hl imm hTrl
      have hTF : TapeFor st tr r := ⟨htr, hoid, hix, hr⟩
      have hTF1 : TapeFor st1 tr r := tapeFor_mono (evalExt_toPrefExt hE1) hTF
      obtain ⟨st2, j2, mv2, hE2, hj2lt, hj2ge, hj2arr, hj2vals, heq2⟩ :=
        ihr st1 _ hTF1.2.2.2 (tracksOf (st1.opsOf (st1.tape tr).opsId))
          (fun t ht => tracks_take ht)
      have hlen_r : ((st1.opsOf (st1.tape tr).opsId).take (st1.tape tr).index).length
          = entsLen r := hTF1.2.2.2.length_eq
      have heval : ∀ k2, entsLen r + needH r ≤ k2 →
          evaluate k2 st1 tr = .ok (st2, .arrS j2) := by
        intro k2 hk2
        rw [evaluate]
        rw [show k2 = entsLen r + (k2 - entsLen r) from by omega]
        rw [show (st1.opsOf (st1.tape tr).opsId).take (st1.tape tr).index
            = ((st1.opsOf (st1.tape tr).opsId).take (st1.tape tr).index) ++ []
          from (List.append_nil _).symm]
        rw [heq2 [] [] [] (k2 - entsLen r) (by omega)]
        exact walk_nil_cons _ _ _ _ _ _
      have hj1cell : st2.cell j1 = st1.cell j1 := hE2.2.2.2 j1 hj1lt
      obtain ⟨j3, hslot, hExtN, hj3ge, hj3lt, hj3arr, hj3vals⟩ :=
        binApply_spec st2 s (.arrS j1) (.arrS j2) mv1 false st.arrays.length
          (Nat.le_trans hE1.2.2.1 hE2.2.2.1)
          (fun hm => ⟨j1, rfl, hj1ge hm, Nat.lt_of_lt_of_le hj1lt hE2.2.2.1⟩)
          (fun hm => absurd hm Bool.false_ne_true)
          (by
            show ((st2.cell j1).isArr || (st2.cell j2).isArr) = true
            rw [hj1cell, hj1arr, hj2arr]
            rfl)
      refine ⟨(binApply st2 s (.arrS j1) mv1 (.arrS j2) false).1, j3, true,
        ((evalExt_trans hE1 hE2).compN hExtN), hj3lt, fun _ => hj3ge, hj3arr, ?_, ?_⟩
      · rw [hj3vals]
        show (bin_op_to_np s (st2.cell j1) (st2.cell j2)).vals = (denote (.binTT s l r)).vals
        rw [show denote (Expr.binTT s l r) = bin_op_to_np s (denote l) (denote r) from rfl]
        exact bin_vals_congr s (by rw [hj1cell, hj1arr, denote_isArr])
          (by rw [hj1cell, hj1vals]) (by rw [hj2arr, denote_isArr]) hj2vals
      · intro rest stack muts k hk
        have hmaxl : needH l ≤ k :=
          Nat.le_trans (Nat.le_max_left _ _) (by simpa [needH] using hk)
        have hmaxr : entsLen r + needH r + 1 ≤ k :=
          Nat.le_trans (Nat.le_max_right _ _) (by simpa [needH] using hk)
        rw [show entsLen (Expr.binTT s l r) = entsLen l + 2 from rfl]
        rw [List.append_assoc, Nat.add_assoc]
        rw [heq1 _ stack muts (2 + k) (by omega)]
        simp only [List.cons_append, List.nil_append]
        rw [show 2 + k = (1 + k) + 1 from by omega]
        rw [walk_track]
        have htrimm : tr ∈ imm := hTr tr (by simp)
        rw [show (decide (tr ∉ imm)) = false from by simp [htrimm]]
        rw [show 1 + k = k + 1 from by omega]
        rw [walk_binOp]
        cases k with
        | zero => omega
        | succ k2 =>
          rw [binStep_eq, resolveOp_arrS]
          simp only []
          rw [resolveOp_tapeS, heval k2 (by omega)]
          simp only []
          rw [hslot]
  | binTC s l d x ihl =>
    intro st es hEF imm hTr
    cases hEF with
    | binTC esl l2 s2 d2 x2 hl =>
      have hTrl : ∀ t, Entry.track t ∈ esl → t ∈ imm := by
        intro t ht
        exact hTr t (by simp [ht])
      obtain ⟨st1, j1, mv1, hE1, hj1lt, hj1ge, hj1arr, hj1vals, heq1⟩ := ihl st esl hl imm hTrl
      obtain ⟨j3, hslot, hExtN, hj3ge, hj3lt, hj3arr, hj3vals⟩ :=
        binApply_spec st1 s (.arrS j1) (.sclS d x) mv1 false st.arrays.length
          hE1.2.2.1
          (fun hm => ⟨j1, rfl, hj1ge hm, hj1lt⟩)
          (fun hm => absurd hm Bool.false_ne_true)
          (by
            show ((st1.cell j1).isArr || (CVal.scl d x).isArr) = true
            rw [hj1arr]
            rfl)
      refine ⟨(binApply st1 s (.arrS j1) mv1 (.sclS d x) false).1, j3, true,
        hE1.compN hExtN, hj3lt, fun _ => hj3ge, hj3arr, ?_, ?_⟩
      · rw [hj3vals]
        show (bin_op_to_np s (st1.cell j1) (.scl d x)).vals = (denote (.binTC s l d x)).vals
        rw [show denote (Expr.binTC s l d x) = bin_op_to_np s (denote l) (.scl d x) from rfl]
        exact bin_vals_congr s (by rw [hj1arr, denote_isArr]) hj1vals rfl rfl
      · intro rest stack muts k hk
        rw [show entsLen (Expr.binTC s l d x) = entsLen l + 2 from rfl]
        rw [List.append_assoc, Nat.add_assoc]
        rw [heq1 _ stack muts (2 + k) (by rw [needH] at hk; omega)]
        simp only [List.cons_append, List.nil_append]
        rw [show 2 + k = (1 + k) + 1 from by omega]
        rw [walk_varConst]
        rw [show 1 + k = k + 1 from by omega]
        rw [walk_binOp]
        rw [binStep_eq, resolveOp_arrS]
        simp only []
        rw [resolveOp_sclS]
        simp only []
        rw [hslot]
  | binCT s d x r ihr =>
    intro st es hEF imm hTr
    cases hEF with
    | binCT esr r2 s2 d2 x2 hrr =>
      have hTrr : ∀ t, Entry.track t ∈ esr → t ∈ imm := by
        intro t ht
        exact hTr t (by simp [ht])
      obtain ⟨st1, j1, mv1, hE1, hj1lt, hj1ge, hj1arr, hj1vals, heq1⟩ := ihr st esr hrr imm hTrr
      obtain ⟨j3, hslot, hExtN, hj3ge, hj3lt, hj3arr, hj3vals⟩ :=
        binApply_spec st1 s (.sclS d x) (.arrS j1) false mv1 st.arrays.length
          hE1.2.2.1
          (fun hm => absurd hm Bool.false_ne_true)
          (fun hm => ⟨j1, rfl, hj1ge hm, hj1lt⟩)
          (by
            show ((CVal.scl d x).isArr || (st1.cell j1).isArr) = true
            rw [hj1arr]
            rfl)
      refine ⟨(binApply st1 s (.sclS d x) false (.arrS j1) mv1).1, j3, true,
        hE1.compN hExtN, hj3lt, fun _ => hj3ge, hj3arr, ?_, ?_⟩
      · rw [hj3vals]
        show (bin_op_to_np s (.scl d x) (st1.cell j1)).vals = (denote (.binCT s d x r)).vals
        rw [show denote (Expr.binCT s d x r) = bin_op_to_np s (.scl d x) (denote r) from rfl]
        exact bin_vals_congr s rfl rfl (by rw [hj1arr, denote_isArr]) hj1vals
      · intro rest stack muts k hk
        rw [show entsLen (Expr.binCT s d x r) = entsLen r + 2 from rfl]
        rw [List.append_assoc, Nat.add_assoc]
        rw [heq1 _ stack muts (2 + k) (by rw [needH] at hk; omega)]
        simp only [List.cons_append, List.nil_append]
        rw [show 2 + k = (1 + k) + 1 from by omega]
        rw [walk_varConst]
        rw [show 1 + k = k + 1 from by omega]
        rw [walk_binOpR]
        rw [binStep_eq, resolveOp_sclS]
        simp only []
        rw [resolveOp_arrS]
        simp only []
        rw [hslot]

/-- Build-then-evaluate: with enough fuel, `evaluate` on the handle
`buildE` returns succeeds and produces (numerically) the direct
evaluation of the expression, without touching any cell that existed
when evaluation began. -/
theorem evaluate_build (e : Expr) (st : Store) :
    ∃ (st' : Store) (j : Nat),
      (∀ fuel, needFuel e ≤ fuel →
        evaluate fuel (buildE st e).1 (buildE st e).2 = .ok (st', .arrS j)) ∧
      EvalExt (buildE st e).1 st' ∧
      j < st'.arrays.length ∧
      (st'.cell j).isArr = true ∧
      (st'.cell j).vals = (denote e).vals := by
  obtain ⟨hB, hlt, hge, hoid, htip, hTF⟩ := buildE_spec e st
  obtain ⟨st', j, mv, hE, hjlt, hjge, hjarr, hjvals, heq⟩ :=
    walk_seg e (buildE st e).1 _ hTF.2.2.2
      (tracksOf ((buildE st e).1.opsOf ((buildE st e).1.tape (buildE st e).2).opsId))
      (fun t ht => tracks_take ht)
  have hlen : (((buildE st e).1.opsOf ((buildE st e).1.tape
      (buildE st e).2).opsId).take ((buildE st e).1.tape (buildE st e).2).index).length
      = entsLen e := hTF.2.2.2.length_eq
  refine ⟨st', j, ?_, hE, hjlt, hjarr, hjvals⟩
  intro fuel hf
  rw [evaluate]
  rw [show fuel = entsLen e + (fuel - entsLen e) from by rw [needFuel] at hf; omega]
  rw [show ((buildE st e).1.opsOf ((buildE st e).1.tape (buildE st e).2).opsId).take
      ((buildE st e).1.tape (buildE st e).2).index
      = (((buildE st e).1.opsOf ((buildE st e).1.tape (buildE st e).2).opsId).take
          ((buildE st e).1.tape (buildE st e).2).index) ++ []
    from (List.append_nil _).symm]
  rw [heq [] [] [] (fuel - entsLen e) (by rw [needFuel] at hf; omega)]
  exact walk_nil_cons _ _ _ _ _ _

theorem un_vals (u : USym) (v : CVal) : (un_op_to_np u v).vals = v.vals.map (unRat u) := by
  cases v <;> rfl

theorem un_isArr (u : USym) (v : CVal) : (un_op_to_np u v).isArr = v.isArr := by
  cases v <;> rfl

theorem unOp_unfold (f : Nat) (st : Store) (u : USym) (rest : List Entry) (v : SVal)
    (stack : List SVal) (m : Bool) (muts : List Bool) (imm : List Nat) :
    walk (f + 1) st (.unOp u :: rest) (v :: stack) (m :: muts) imm
      = (resolveOp f st v).casesOn (fun err => .error err)
          (fun pu =>
            if m then
              match pu.2 with
              | .arrS i =>
                walk f (pu.1.setCell i (un_op_to_np u (pu.1.cell i))) rest
                  (.arrS i :: stack) (true :: muts) imm
              | _ => .error .typeErr
            else
              walk f (pushResult pu.1 (un_op_to_np u (pu.2.toCVal pu.1))).1 rest
                ((pushResult pu.1 (un_op_to_np u (pu.2.toCVal pu.1))).2 :: stack)
                (true :: muts) imm) := by
  cases v <;> cases f <;> rfl

theorem walk_unOp (f : Nat) (st : Store) (u : USym) (rest : List Entry) (v : SVal)
    (stack : List SVal) (m : Bool) (muts : List Bool) (imm : List Nat) :
    walk (f + 1) st (.unOp u :: rest) (v :: stack) (m :: muts) imm
      = match resolveOp f st v with
        | .error err => .error err
        | .ok (st1, rv) =>
          if m then
            match rv with
            | .arrS i =>
              walk f (st1.setCell i (un_op_to_np u (st1.cell i))) rest
                (.arrS i :: stack) (true :: muts) imm
            | _ => .error .typeErr
          else
            walk f (pushResult st1 (un_op_to_np u (rv.toCVal st1))).1 rest
              ((pushResult st1 (un_op_to_np u (rv.toCVal st1))).2 :: stack)
              (true :: muts) imm := by
  rw [unOp_unfold]
  cases hr : resolveOp f st v with
  | error err => rfl
  | ok pu =>
    obtain ⟨st1, rv⟩ := pu
    simp only [casesOn_ok]

theorem mem_tracksOf_iff (l : List Entry) (t : Nat) :
    t ∈ tracksOf l ↔ Entry.track t ∈ l := by
  constructor
  · intro h
    rw [tracksOf, List.mem_filterMap] at h
    obtain ⟨e, he, heq⟩ := h
    cases e <;> simp at heq
    subst heq
    exact he
  · exact track_mem_tracksOf

/-! ### General handle-update lemmas (both branches) -/

/-- The handle well-formedness invariant: every handle's backing list
exists and its cursor is within the backing list. -/
def WFStore (st : Store) : Prop :=
  ∀ t, t < st.tapes.length →
    (st.tape t).opsId < st.opsLists.length ∧
    (st.tape t).index ≤ (st.opsOf (st.tape t).opsId).length

/-- The visible sequence of a handle: the entries at positions
`0 .. cursor-1` of its backing list. -/
def visible (st : Store) (t : Nat) : List Entry :=
  (st.opsOf (st.tape t).opsId).take (st.tape t).index

/-- The common core of the three update operations: extend the backing
list in place when the handle is at its tip, else copy the visible
prefix into a fresh backing list; append the new entries; return a
fresh handle with the cursor advanced. -/
def appendOps (st : Store) (selfT : Nat) (news : List Entry) (delta : Nat) : Store × Nat :=
  let tp := st.tape selfT
  let full := st.opsOf tp.opsId
  let p : Store × Nat :=
    if tp.index = full.length then
      (st.setOps tp.opsId (full ++ news), tp.opsId)
    else
      ({ st with opsLists := st.opsLists ++ [full.take tp.index ++ news] },
       st.opsLists.length)
  let tid := p.1.tapes.length
  ({ p.1 with tapes := p.1.tapes ++ [⟨none, 0, p.2, tp.index + delta⟩] }, tid)

theorem updateUnary_eq_appendOps (st : Store) (selfT : Nat) (u : USym) :
    updateUnary st selfT u = appendOps st selfT [.unOp u] 1 := rfl

theorem updateFunc_eq_appendOps (st : Store) (selfT : Nat) (nm : String) :
    updateFunc st selfT nm = appendOps st selfT [.funcOp nm] 1 := rfl

theorem updateBinary_const_eq_appendOps (st : Store) (selfT : Nat) (d : DType) (x : ℚ)
    (s : Sym) (rev : Bool) :
    updateBinary st selfT (.constOp d x) s rev
      = appendOps st selfT [.varConst d x, if rev then .binOpR s else .binOp s] 2 := rfl

/-- What `appendOps` does, in either branch. -/
theorem appendOps_spec (st : Store) (selfT : Nat) (news : List Entry) (delta : Nat)
    (hself : selfT < st.tapes.length) (hWF : WFStore st) (hdelta : delta = news.length) :
    (appendOps st selfT news delta).2 = st.tapes.length ∧
    (appendOps st selfT news delta).1.arrays = st.arrays ∧
    (appendOps st selfT news delta).1.tapes.length = st.tapes.length + 1 ∧
    (∀ u, u < st.tapes.length → (appendOps st selfT news delta).1.tape u = st.tape u) ∧
    ((appendOps st selfT news delta).1.tape st.tapes.length).index
      = (st.tape selfT).index + delta ∧
    ((appendOps st selfT news delta).1.tape st.tapes.length).refcount = 0 ∧
    ((appendOps st selfT news delta).1.tape st.tapes.length).dataCell = none ∧
    visible (appendOps st selfT news delta).1 st.tapes.length
      = visible st selfT ++ news ∧
    (∀ h, h < st.tapes.length →
      visible (appendOps st selfT news delta).1 h = visible st h) ∧
    WFStore (appendOps st selfT news delta).1 ∧
    PrefExt st (appendOps st selfT news delta).1 := by
  obtain ⟨hoid, hix⟩ := hWF selfT hself
  by_cases htip : (st.tape selfT).index = (st.opsOf (st.tape selfT).opsId).length
  · -- shared-append branch
    have h2 : (appendOps st selfT news delta).2 = st.tapes.length := by
      simp only [appendOps]
      rw [if_pos htip]
      simp [Store.setOps]
    have harr : (appendOps st selfT news delta).1.arrays = st.arrays := by
      simp only [appendOps]
      rw [if_pos htip]
      simp [Store.setOps]
    have hlenT : (appendOps st selfT news delta).1.tapes.length = st.tapes.length + 1 := by
      simp only [appendOps]
      rw [if_pos htip]
      simp [Store.setOps]
    have hlenO : (appendOps st selfT news delta).1.opsLists.length = st.opsLists.length := by
      simp only [appendOps]
      rw [if_pos htip]
      simp [Store.setOps]
    have htpold : ∀ u, u < st.tapes.length →
        (appendOps st selfT news delta).1.tape u = st.tape u := by
      intro u hu
      simp only [appendOps]
      rw [if_pos htip]
      simp only [tape_mk]
      rw [getD_append_lt _ _ _ _ (by simp [Store.setOps]; exact hu)]
      simp [Store.setOps, Store.tape]
    have htpnew : (appendOps st selfT news delta).1.tape st.tapes.length
        = ⟨none, 0, (st.tape selfT).opsId, (st.tape selfT).index + delta⟩ := by
      simp only [appendOps]
      rw [if_pos htip]
      simp only [tape_mk]
      exact getD_concat_of_length _ _ _ _ (by simp [Store.setOps])
    have hofnew : (appendOps st selfT news delta).1.opsOf (st.tape selfT).opsId
        = st.opsOf (st.tape selfT).opsId ++ news := by
      simp only [appendOps]
      rw [if_pos htip]
      simp only [opsOf_mk]
      simp only [Store.setOps]
      rw [getD_set_self _ _ _ _ hoid]
    have hofold : ∀ o, o ≠ (st.tape selfT).opsId →
        (appendOps st selfT news delta).1.opsOf o = st.opsOf o := by
      intro o ho
      simp only [appendOps]
      rw [if_pos htip]
      simp only [opsOf_mk]
      simp only [Store.setOps]
      rw [getD_set_ne _ _ _ _ _ (fun h => ho h.symm)]
      rfl
    have hofpre : ∀ o, st.opsOf o <+: (appendOps st selfT news delta).1.opsOf o := by
      intro o
      by_cases ho : o = (st.tape selfT).opsId
      · subst ho
        rw [hofnew]
        exact List.prefix_append _ _
      · rw [hofold o ho]
    have hvisold : ∀ h, h < st.tapes.length →
        visible (appendOps st selfT news delta).1 h = visible st h := by
      intro h hh
      rw [visible, visible, htpold h hh]
      exact prefix_take_eq (hofpre _) _ (hWF h hh).2
    refine ⟨h2, harr, hlenT, htpold, by rw [htpnew], by rw [htpnew], by rw [htpnew], ?_,
      hvisold, ?_, ?_⟩
    · rw [visible, visible, htpnew]
      show ((appendOps st selfT news delta).1.opsOf (st.tape selfT).opsId).take
          ((st.tape selfT).index + delta)
        = (st.opsOf (st.tape selfT).opsId).take (st.tape selfT).index ++ news
      rw [hofnew, List.take_of_length_le (by rw [List.length_append]; omega),
        List.take_of_length_le (Nat.le_of_eq htip.symm)]
    · intro u hu
      rw [hlenT] at hu
      by_cases hu' : u < st.tapes.length
      · rw [htpold u hu']
        obtain ⟨h1, h2'⟩ := hWF u hu'
        exact ⟨by rw [hlenO]; exact h1, Nat.le_trans h2' (hofpre _).length_le⟩
      · have hu2 : u = st.tapes.length := by omega
        subst hu2
        rw [htpnew]
        refine ⟨?_, ?_⟩
        · show (st.tape selfT).opsId < (appendOps st selfT news delta).1.opsLists.length
          rw [hlenO]
          exact hoid
        show (st.tape selfT).index + delta
          ≤ ((appendOps st selfT news delta).1.opsOf (st.tape selfT).opsId).length
        rw [hofnew, List.length_append]
        omega
    · refine ⟨by rw [harr], fun i _ => cell_congr harr i, by rw [hlenT]; omega,
        fun t ht => by rw [htpold t ht]; exact ⟨rfl, rfl, rfl⟩, by rw [hlenO], fun o _ => hofpre o⟩
  · -- copy branch
    have h2 : (appendOps st selfT news delta).2 = st.tapes.length := by
      simp only [appendOps]
      rw [if_neg htip]
    have harr : (appendOps st selfT news delta).1.arrays = st.arrays := by
      simp only [appendOps]
      rw [if_neg htip]
    have hlenT : (appendOps st selfT news delta).1.tapes.length = st.tapes.length + 1 := by
      simp only [appendOps]
      rw [if_neg htip]
      simp
    have hlenO : (appendOps st selfT news delta).1.opsLists.length
        = st.opsLists.length + 1 := by
      simp only [appendOps]
      rw [if_neg htip]
      simp
    have htpold : ∀ u, u < st.tapes.length →
        (appendOps st selfT news delta).1.tape u = st.tape u := by
      intro u hu
      simp only [appendOps]
      rw [if_neg htip]
      simp only [tape_mk]
      rw [getD_append_lt _ _ _ _ hu]
      rfl
    have htpnew : (appendOps st selfT news delta).1.tape st.tapes.length
        = ⟨none, 0, st.opsLists.length, (st.tape selfT).index + delta⟩ := by
      simp only [appendOps]
      rw [if_neg htip]
      simp only [tape_mk]
      exact getD_concat_of_length _ _ _ _ rfl
    have hofold : ∀ o, o < st.opsLists.length →
        (appendOps st selfT news delta).1.opsOf o = st.opsOf o := by
      intro o ho
      simp only [appendOps]
      rw [if_neg htip]
      simp only [opsOf_mk]
      rw [getD_append_lt _ _ _ _ ho]
      rfl
    have hofnew : (appendOps st selfT news delta).1.opsOf st.opsLists.length
        = (st.opsOf (st.tape selfT).opsId).take (st.tape selfT).index ++ news := by
      simp only [appendOps]
      rw [if_neg htip]
      simp only [opsOf_mk]
      exact getD_concat_of_length _ _ _ _ rfl
    have hvisold : ∀ h, h < st.tapes.length →
        visible (appendOps st selfT news delta).1 h = visible st h := by
      intro h hh
      rw [visible, visible, htpold h hh, hofold _ (hWF h hh).1]
    refine ⟨h2, harr, hlenT, htpold, by rw [htpnew], by rw [htpnew], by rw [htpnew], ?_,
      hvisold, ?_, ?_⟩
    · rw [visible, visible, htpnew]
      show ((appendOps st selfT news delta).1.opsOf st.opsLists.length).take
          ((st.tape selfT).index + delta)
        = (st.opsOf (st.tape selfT).opsId).take (st.tape selfT).index ++ news
      rw [hofnew]
      refine List.take_of_length_le ?_
      rw [List.length_append, List.length_take]
      omega
    · intro u hu
      rw [hlenT] at hu
      by_cases hu' : u < st.tapes.length
      · rw [htpold u hu', hofold _ (hWF u hu').1]
        obtain ⟨ha, hb⟩ := hWF u hu'
        exact ⟨by omega, hb⟩
      · have hu2 : u = st.tapes.length := by omega
        subst hu2
        rw [htpnew]
        refine ⟨?_, ?_⟩
        · show st.opsLists.length < (appendOps st selfT news delta).1.opsLists.length
          rw [hlenO]
          omega
        show (st.tape selfT).index + delta
          ≤ ((appendOps st selfT news delta).1.opsOf st.opsLists.length).length
        rw [hofnew, List.length_append, List.length_take]
        omega
    · refine ⟨by rw [harr], fun i _ => cell_congr harr i, by rw [hlenT]; omega,
        fun t ht => by rw [htpold t ht]; exact ⟨rfl, rfl, rfl⟩, by rw [hlenO]; omega,
        fun o ho => by rw [hofold o ho]⟩

/-- Everything `__update_binary__` does when the handle is *not* at the
tip of its backing list (the copy-on-branch branch). -/
theorem updateBinary_spec_copy (st : Store) (selfT : Nat) (other : BOperand) (s : Sym)
    (rev : Bool)
    (hcopy : ¬ (st.tape selfT).index = (st.opsOf (st.tape selfT).opsId).length) :
    (updateBinary st selfT other s rev).2 = st.tapes.length ∧
    (updateBinary st selfT other s rev).1.arrays = st.arrays ∧
    (updateBinary st selfT other s rev).1.opsLists.length = st.opsLists.length + 1 ∧
    (updateBinary st selfT other s rev).1.tapes.length = st.tapes.length + 1 ∧
    (updateBinary st selfT other s rev).1.tape st.tapes.length
      = ⟨none, 0, st.opsLists.length, (st.tape selfT).index + 2⟩ ∧
    (updateBinary st selfT other s rev).1.opsOf st.opsLists.length
      = (st.opsOf (st.tape selfT).opsId).take (st.tape selfT).index
        ++ [(match other with
             | .tapeOp t => Entry.track t
             | .constOp d x => Entry.varConst d x),
            (if rev then Entry.binOpR s else Entry.binOp s)] ∧
    (∀ o, o < st.opsLists.length →
      (updateBinary st selfT other s rev).1.opsOf o = st.opsOf o) ∧
    (∀ u, u < st.tapes.length →
      (updateBinary st selfT other s rev).1.tape u
        = (match other with
           | .tapeOp t =>
             if u = t then { st.tape u with refcount := (st.tape u).refcount + 1 }
             else st.tape u
           | .constOp _ _ => st.tape u)) := by
  cases other with
  | tapeOp t =>
    refine ⟨?_, ?_, ?_, ?_, ?_, ?_, ?_, ?_⟩
    case refine_1 =>
      simp [updateBinary, hcopy, Store.bumpRef]
    case refine_2 =>
      simp [updateBinary, hcopy, Store.bumpRef]
    case refine_3 =>
      simp [updateBinary, hcopy, Store.bumpRef]
    case refine_4 =>
      simp [updateBinary, hcopy, Store.bumpRef]
    case refine_5 =>
      simp only [updateBinary]
      rw [if_neg hcopy]
      simp only [tape_mk]
      exact getD_concat_of_length _ _ _ _ (by simp [Store.bumpRef])
    case refine_6 =>
      simp only [updateBinary]
      rw [if_neg hcopy]
      simp only [opsOf_mk, opsLists_bumpRef]
      exact getD_concat_of_length _ _ _ _ rfl
    case refine_7 =>
      intro o ho
      simp only [updateBinary]
      rw [if_neg hcopy]
      simp only [opsOf_mk, opsLists_bumpRef]
      rw [getD_append_lt _ _ _ _ ho]
      rfl
    case refine_8 =>
      intro u hu
      simp only [updateBinary]
      rw [if_neg hcopy]
      simp only [tape_mk]
      rw [getD_append_lt _ _ _ _ (by simp [Store.bumpRef]; exact hu)]
      simp only [Store.bumpRef]
      by_cases hut : u = t
      · subst hut
        rw [getD_set_self _ _ _ _ (by simpa using hu)]
        simp [Store.tape]
      · rw [getD_set_ne _ _ _ _ _ (fun h => hut h.symm)]
        simp [hut, Store.tape]
  | constOp dd xx =>
    refine ⟨?_, ?_, ?_, ?_, ?_, ?_, ?_, ?_⟩
    case refine_1 =>
      simp [updateBinary, hcopy]
    case refine_2 =>
      simp [updateBinary, hcopy]
    case refine_3 =>
      simp [updateBinary, hcopy]
    case refine_4 =>
      simp [updateBinary, hcopy]
    case refine_5 =>
      simp only [updateBinary]
      rw [if_neg hcopy]
      simp only [tape_mk]
      exact getD_concat_of_length _ _ _ _ rfl
    case refine_6 =>
      simp only [updateBinary]
      rw [if_neg hcopy]
      simp only [opsOf_mk]
      exact getD_concat_of_length _ _ _ _ rfl
    case refine_7 =>
      intro o ho
      simp only [updateBinary]
      rw [if_neg hcopy]
      simp only [opsOf_mk]
      rw [getD_append_lt _ _ _ _ ho]
      rfl
    case refine_8 =>
      intro u hu
      simp only [updateBinary]
      rw [if_neg hcopy]
      simp only [tape_mk]
      rw [getD_append_lt _ _ _ _ hu]
      simp [Store.tape]

/-- Every binary operator application, in either branch: a fresh handle
is returned with cursor advanced by two, no existing handle's visible
sequence changes, and handle well-formedness is preserved. -/
theorem updateBinary_general (st : Store) (selfT : Nat) (other : BOperand) (s : Sym)
    (rev : Bool) (hself : selfT < st.tapes.length) (hWF : WFStore st) :
    (updateBinary st selfT other s rev).2 = st.tapes.length ∧
    (updateBinary st selfT other s rev).1.tapes.length = st.tapes.length + 1 ∧
    ((updateBinary st selfT other s rev).1.tape (updateBinary st selfT other s rev).2).index
      = (st.tape selfT).index + 2 ∧
    visible (updateBinary st selfT other s rev).1 (updateBinary st selfT other s rev).2
      = visible st selfT
        ++ [(match other with
             | .tapeOp t => Entry.track t
             | .constOp d x => Entry.varConst d x),
            (if rev then Entry.binOpR s else Entry.binOp s)] ∧
    (∀ h, h < st.tapes.length →
      visible (updateBinary st selfT other s rev).1 h = visible st h) ∧
    WFStore (updateBinary st selfT other s rev).1 := by
  obtain ⟨hoid, hix⟩ := hWF selfT hself
  by_cases htip : (st.tape selfT).index = (st.opsOf (st.tape selfT).opsId).length
  · obtain ⟨u1, u2, u3, u4, u5, u6, u7, u8⟩ := updateBinary_spec st selfT other s rev htip hoid
    have hfields : ∀ u, u < st.tapes.length →
        ((updateBinary st selfT other s rev).1.tape u).opsId = (st.tape u).opsId ∧
        ((updateBinary st selfT other s rev).1.tape u).index = (st.tape u).index := by
      intro u hu
      rw [u8 u hu]
      cases other with
      | tapeOp tt =>
        by_cases hut : u = tt
        · subst hut
          simp
        · simp [hut]
      | constOp dd xx => exact ⟨rfl, rfl⟩
    have hofpre : ∀ o, st.opsOf o <+: (updateBinary st selfT other s rev).1.opsOf o := by
      intro o
      by_cases ho : o = (st.tape selfT).opsId
      · subst ho
        rw [u6]
        exact List.prefix_append _ _
      · rw [u7 o ho]
    refine ⟨u1, u4, ?_, ?_, ?_, ?_⟩
    · rw [u1, u5]
    · rw [u1, visible, u5]
      show ((updateBinary st selfT other s rev).1.opsOf (st.tape selfT).opsId).take
          ((st.tape selfT).index + 2) = visible st selfT ++ _
      rw [u6, visible, List.take_of_length_le (by rw [List.length_append]; simp; omega),
        List.take_of_length_le (Nat.le_of_eq htip.symm)]
    · intro h hh
      rw [visible, visible, (hfields h hh).1, (hfields h hh).2]
      exact prefix_take_eq (hofpre _) _ (hWF h hh).2
    · intro u hu
      rw [u4] at hu
      by_cases hu' : u < st.tapes.length
      · obtain ⟨hf1, hf2⟩ := hfields u hu'
        rw [hf1, hf2]
        obtain ⟨ha, hb⟩ := hWF u hu'
        exact ⟨by rw [u3]; exact ha, Nat.le_trans hb (hofpre _).length_le⟩
      · have hu2 : u = st.tapes.length := by omega
        subst hu2
        rw [u5]
        refine ⟨?_, ?_⟩
        · show (st.tape selfT).opsId < (updateBinary st selfT other s rev).1.opsLists.length
          rw [u3]
          exact hoid
        · show (st.tape selfT).index + 2
            ≤ ((updateBinary st selfT other s rev).1.opsOf (st.tape selfT).opsId).length
          rw [u6, List.length_append, ← htip]
          simp
  · obtain ⟨u1, u2, u3, u4, u5, u6, u7, u8⟩ := updateBinary_spec_copy st selfT other s rev htip
    have hfields : ∀ u, u < st.tapes.length →
        ((updateBinary st selfT other s rev).1.tape u).opsId = (st.tape u).opsId ∧
        ((updateBinary st selfT other s rev).1.tape u).index = (st.tape u).index := by
      intro u hu
      rw [u8 u hu]
      cases other with
      | tapeOp tt =>
        by_cases hut : u = tt
        · subst hut
          simp
        · simp [hut]
      | constOp dd xx => exact ⟨rfl, rfl⟩
    refine ⟨u1, u4, ?_, ?_, ?_, ?_⟩
    · rw [u1, u5]
    · rw [u1, visible, u5]
      show ((updateBinary st selfT other s rev).1.opsOf st.opsLists.length).take
          ((st.tape selfT).index + 2) = visible st selfT ++ _
      rw [u6, visible]
      refine List.take_of_length_le ?_
      rw [List.length_append, List.length_take]
      simp
    · intro h hh
      rw [visible, visible, (hfields h hh).1, (hfields h hh).2, u7 _ (hWF h hh).1]
    · intro u hu
      rw [u4] at hu
      by_cases hu' : u < st.tapes.length
      · obtain ⟨hf1, hf2⟩ := hfields u hu'
        rw [hf1, hf2, u7 _ (hWF u hu').1]
        obtain ⟨ha, hb⟩ := hWF u hu'
        exact ⟨by rw [u3]; omega, hb⟩
      · have hu2 : u = st.tapes.length := by omega
        subst hu2
        rw [u5]
        refine ⟨?_, ?_⟩
        · show st.opsLists.length < (updateBinary st selfT other s rev).1.opsLists.length
          rw [u3]
          omega
        · show (st.tape selfT).index + 2
            ≤ ((updateBinary st selfT other s rev).1.opsOf st.opsLists.length).length
          rw [u6, List.length_append, List.length_take]
          simp
          omega

theorem WFStore.of_prefExt {st st' : Store} (hWF : WFStore st) (hP : PrefExt st st')
    (hnew : ∀ u, st.tapes.length ≤ u → u < st'.tapes.length →
      (st'.tape u).opsId < st'.opsLists.length ∧
      (st'.tape u).index ≤ (st'.opsOf (st'.tape u).opsId).length) :
    WFStore st' := by
  intro u hu
  by_cases hu' : u < st.tapes.length
  · obtain ⟨x, y, z⟩ := hP.2.2.2.1 u hu'
    obtain ⟨ha, hb⟩ := hWF u hu'
    refine ⟨by rw [x]; exact Nat.lt_of_lt_of_le ha hP.2.2.2.2.1, ?_⟩
    rw [x, y]
    exact Nat.le_trans hb (hP.2.2.2.2.2 _ ha).length_le
  · exact hnew u (by omega) hu

/-- `buildE` preserves handle well-formedness. -/
theorem buildE_WF (e : Expr) : ∀ st, WFStore st → WFStore (buildE st e).1 := by
  induction e with
  | leaf d xs =>
    intro st h
    obtain ⟨hb, h2, hlt, hlo, hla, htp, hof, hc⟩ := newLeaf_build st d xs
    refine h.of_prefExt (buildExt_toPrefExt hb) ?_
    intro u hge hlt'
    have hu : u = st.tapes.length := by
      rw [show (buildE st (.leaf d xs)).1 = (newLeaf st d xs).1 from rfl] at hlt'
      rw [hlt] at hlt'
      omega
    subst hu
    rw [show (buildE st (.leaf d xs)).1 = (newLeaf st d xs).1 from rfl, ← h2, htp]
    refine ⟨?_, ?_⟩
    · show st.opsLists.length < (newLeaf st d xs).1.opsLists.length
      omega
    · show (1 : Nat) ≤ ((newLeaf st d xs).1.opsOf st.opsLists.length).length
      rw [hof]
      simp
  | binTT s l r ihl ihr =>
    intro st h
    have h1 := ihl st h
    have h2 := ihr (buildE st l).1 h1
    have hlt := (buildE_spec l st).2.1
    have hmono := ((buildE_spec r (buildE st l).1).1).2.2.1
    exact (updateBinary_general (buildE (buildE st l).1 r).1 (buildE st l).2
      (.tapeOp (buildE (buildE st l).1 r).2) s false (by omega) h2).2.2.2.2.2
  | binTC s l d x ihl =>
    intro st h
    have h1 := ihl st h
    have hlt := (buildE_spec l st).2.1
    exact (updateBinary_general (buildE st l).1 (buildE st l).2 (.constOp d x) s false
      hlt h1).2.2.2.2.2
  | binCT s d x r ihr =>
    intro st h
    have h1 := ihr st h
    have hlt := (buildE_spec r st).2.1
    exact (updateBinary_general (buildE st r).1 (buildE st r).2 (.constOp d x) s true
      hlt h1).2.2.2.2.2

/-! ### Evaluation never touches the tapes or the backing lists -/

theorem pushResult_frame (st : Store) (res : CVal) :
    (pushResult st res).1.tapes = st.tapes ∧ (pushResult st res).1.opsLists = st.opsLists := by
  cases res <;> exact ⟨rfl, rfl⟩

theorem tryInplace_frame (st : Store) (s : Sym) (o : SVal) (lv rv : CVal) {q : Store × SVal}
    (h : tryInplace st s o lv rv = some q) :
    q.1.tapes = st.tapes ∧ q.1.opsLists = st.opsLists := by
  cases o with
  | arrS i =>
    rw [tryInplace] at h
    split at h
    · injection h with h
      subst h
      exact ⟨rfl, rfl⟩
    · exact absurd h (by simp)
  | sclS d x => exact absurd h (by simp [tryInplace])
  | tapeS t => exact absurd h (by simp [tryInplace])

theorem binApply_frame (st : Store) (s : Sym) (lslot : SVal) (ml : Bool) (rslot : SVal)
    (mr : Bool) :
    (binApply st s lslot ml rslot mr).1.tapes = st.tapes ∧
    (binApply st s lslot ml rslot mr).1.opsLists = st.opsLists := by
  simp only [binApply]
  split
  · cases htry : tryInplace st s lslot (lslot.toCVal st) (rslot.toCVal st) with
    | some q => exact tryInplace_frame _ _ _ _ _ htry
    | none => exact pushResult_frame _ _
  · split
    · cases htry : tryInplace st s rslot (lslot.toCVal st) (rslot.toCVal st) with
      | some q => exact tryInplace_frame _ _ _ _ _ htry
      | none => exact pushResult_frame _ _
    · exact pushResult_frame _ _

/-- A successful `evaluate` walk never changes the tape objects or the
backing lists of the store (in particular it never changes any
refcount). -/
theorem walk_store_frame : ∀ (n : Nat),
    (∀ (st : Store) (es : List Entry) (stack : List SVal) (muts : List Bool)
       (imm : List Nat) (st' : Store) (v : SVal),
       walk n st es stack muts imm = .ok (st', v) →
       st'.tapes = st.tapes ∧ st'.opsLists = st.opsLists) ∧
    (∀ (st : Store) (s : Sym) (opl : SVal) (ml : Bool) (opr : SVal) (mr : Bool)
       (rest : List Entry) (stack : List SVal) (muts : List Bool) (imm : List Nat)
       (st' : Store) (v : SVal),
       binStep n st s opl ml opr mr rest stack muts imm = .ok (st', v) →
       st'.tapes = st.tapes ∧ st'.opsLists = st.opsLists) ∧
    (∀ (st : Store) (w : SVal) (st' : Store) (v : SVal),
       resolveOp n st w = .ok (st', v) →
       st'.tapes = st.tapes ∧ st'.opsLists = st.opsLists) := by
  intro n
  induction n using Nat.strong_induction_on with
  | _ n IH =>
    have R : ∀ (st : Store) (w : SVal) (st' : Store) (v : SVal),
        resolveOp n st w = .ok (st', v) →
        st'.tapes = st.tapes ∧ st'.opsLists = st.opsLists := by
      intro st w st' v h
      cases w with
      | arrS i =>
        rw [resolveOp_arrS] at h
        injection h with h
        rw [← (Prod.mk.injEq _ _ _ _).mp h |>.1]
        exact ⟨rfl, rfl⟩
      | sclS d x =>
        rw [resolveOp_sclS] at h
        injection h with h
        rw [← (Prod.mk.injEq _ _ _ _).mp h |>.1]
        exact ⟨rfl, rfl⟩
      | tapeS t =>
        cases n with
        | zero => exact absurd h (by simp [resolveOp])
        | succ m =>
          rw [resolveOp_tapeS, evaluate] at h
          exact (IH m (by omega)).1 _ _ _ _ _ _ _ h
    have P : ∀ (st : Store) (es : List Entry) (stack : List SVal) (muts : List Bool)
        (imm : List Nat) (st' : Store) (v : SVal),
        walk n st es stack muts imm = .ok (st', v) →
        st'.tapes = st.tapes ∧ st'.opsLists = st.opsLists := by
      intro st es stack muts imm st' v h
      cases es with
      | nil =>
        cases stack with
        | nil => exact absurd h (by simp [walk])
        | cons top stack' =>
          rw [walk_nil_cons] at h
          injection h with h
          rw [← (Prod.mk.injEq _ _ _ _).mp h |>.1]
          exact ⟨rfl, rfl⟩
      | cons e rest =>
        cases n with
        | zero => exact absurd h (by simp [walk])
        | succ m =>
          cases e with
          | varArr a =>
            rw [walk_varArr] at h
            exact (IH m (by omega)).1 _ _ _ _ _ _ _ h
          | varConst d x =>
            rw [walk_varConst] at h
            exact (IH m (by omega)).1 _ _ _ _ _ _ _ h
          | track t =>
            rw [walk_track] at h
            exact (IH m (by omega)).1 _ _ _ _ _ _ _ h
          | funcOp nm =>
            rw [walk_funcOp] at h
            exact absurd h (by simp)
          | unOp u =>
            match stack, muts with
            | [], _ => exact absurd h (by simp [walk])
            | _ :: _, [] => exact absurd h (by simp [walk])
            | w :: stack', mm :: muts' =>
              rw [walk_unOp] at h
              cases hres : resolveOp m st w with
              | error err =>
                simp only [hres] at h
                exact absurd h (by simp)
              | ok pr =>
                obtain ⟨st1, rv⟩ := pr
                simp only [hres] at h
                have hst1 := (IH m (by omega)).2.2 st w st1 rv hres
                by_cases hmm : mm = true
                · subst hmm
                  rw [if_pos rfl] at h
                  cases rv with
                  | arrS i =>
                    have := (IH m (by omega)).1 _ _ _ _ _ _ _ h
                    refine ⟨?_, ?_⟩
                    · rw [this.1]
                      simp [hst1.1]
                    · rw [this.2]
                      simp [hst1.2]
                  | sclS d x => exact absurd h (by simp)
                  | tapeS t => exact absurd h (by simp)
                · rw [if_neg hmm] at h
                  have := (IH m (by omega)).1 _ _ _ _ _ _ _ h
                  obtain ⟨hp1, hp2⟩ := pushResult_frame st1 (un_op_to_np u (rv.toCVal st1))
                  exact ⟨by rw [this.1, hp1, hst1.1], by rw [this.2, hp2, hst1.2]⟩
          | binOp s =>
            match stack, muts with
            | [], _ => exact absurd h (by simp [walk])
            | _ :: [], _ => exact absurd h (by simp [walk])
            | _ :: _ :: _, [] => exact absurd h (by simp [walk])
            | _ :: _ :: _, _ :: [] => exact absurd h (by simp [walk])
            | v1 :: v2 :: stack', m1 :: m2 :: muts' =>
              rw [walk_binOp] at h
              exact (IH m (by omega)).2.1 _ _ _ _ _ _ _ _ _ _ _ _ h
          | binOpR s =>
            match stack, muts with
            | [], _ => exact absurd h (by simp [walk])
            | _ :: [], _ => exact absurd h (by simp [walk])
            | _ :: _ :: _, [] => exact absurd h (by simp [walk])
            | _ :: _ :: _, _ :: [] => exact absurd h (by simp [walk])
            | v1 :: v2 :: stack', m1 :: m2 :: muts' =>
              rw [walk_binOpR] at h
              exact (IH m (by omega)).2.1 _ _ _ _ _ _ _ _ _ _ _ _ h
    have Q : ∀ (st : Store) (s : Sym) (opl : SVal) (ml : Bool) (opr : SVal) (mr : Bool)
        (rest : List Entry) (stack : List SVal) (muts : List Bool) (imm : List Nat)
        (st' : Store) (v : SVal),
        binStep n st s opl ml opr mr rest stack muts imm = .ok (st', v) →
        st'.tapes = st.tapes ∧ st'.opsLists = st.opsLists := by
      intro st s opl ml opr mr rest stack muts imm st' v h
      rw [binStep_eq] at h
      cases hres1 : resolveOp n st opl with
      | error err =>
        simp only [hres1] at h
        exact absurd h (by simp)
      | ok pr1 =>
        obtain ⟨st1, lslot⟩ := pr1
        simp only [hres1] at h
        cases hres2 : resolveOp n st1 opr with
        | error err =>
          simp only [hres2] at h
          exact absurd h (by simp)
        | ok pr2 =>
          obtain ⟨st2, rslot⟩ := pr2
          simp only [hres2] at h
          have h1 := R st opl st1 lslot hres1
          have h2 := R st1 opr st2 rslot hres2
          have h3 := P _ _ _ _ _ _ _ h
          obtain ⟨hb1, hb2⟩ := binApply_frame st2 s lslot ml rslot mr
          exact ⟨by rw [h3.1, hb1, h2.1, h1.1], by rw [h3.2, hb2, h2.2, h1.2]⟩
    exact ⟨P, Q, R⟩

/-- Evaluating a tape whose visible sequence is a built expression
followed by a `FUNC` entry raises the not-implemented error. -/
theorem evaluate_after_func (e : Expr) (st : Store) (hWF : WFStore st) (nm : String) :
    ∀ fuel, needFuel e + 1 ≤ fuel →
      evaluate fuel (updateFunc (buildE st e).1 (buildE st e).2 nm).1
        (updateFunc (buildE st e).1 (buildE st e).2 nm).2 = .error .notImplemented := by
  obtain ⟨hB, hlt, hge, hoid, htip, hTF⟩ := buildE_spec e st
  have hWF1 := buildE_WF e st hWF
  obtain ⟨a1, a2, a3, a4, a5, a6, a7, a8, a9, a10, a11⟩ :=
    appendOps_spec (buildE st e).1 (buildE st e).2 [.funcOp nm] 1 hlt hWF1 rfl
  have hvis : visible (appendOps (buildE st e).1 (buildE st e).2 [.funcOp nm] 1).1
      (appendOps (buildE st e).1 (buildE st e).2 [.funcOp nm] 1).2
      = visible (buildE st e).1 (buildE st e).2 ++ [Entry.funcOp nm] := by
    rw [a1]
    exact a8
  have hEF : EntriesFor (appendOps (buildE st e).1 (buildE st e).2 [.funcOp nm] 1).1
      (visible (buildE st e).1 (buildE st e).2) e :=
    entriesFor_mono a11 hTF.2.2.2
  obtain ⟨st', j, mv, hE, hjlt, hjge, hjarr, hjvals, heq⟩ :=
    walk_seg e (appendOps (buildE st e).1 (buildE st e).2 [.funcOp nm] 1).1 _ hEF
      (tracksOf ((appendOps (buildE st e).1 (buildE st e).2 [.funcOp nm] 1).1.opsOf
        ((appendOps (buildE st e).1 (buildE st e).2 [.funcOp nm] 1).1.tape
          (appendOps (buildE st e).1 (buildE st e).2 [.funcOp nm] 1).2).opsId))
      (fun t ht => tracks_take (n := ((appendOps (buildE st e).1 (buildE st e).2
          [.funcOp nm] 1).1.tape (appendOps (buildE st e).1 (buildE st e).2 [.funcOp nm] 1).2).index)
        (by
          show Entry.track t ∈ visible (appendOps (buildE st e).1 (buildE st e).2 [.funcOp nm] 1).1
            (appendOps (buildE st e).1 (buildE st e).2 [.funcOp nm] 1).2
          rw [hvis]
          exact List.mem_append_left _ ht))
  intro fuel hf
  rw [updateFunc_eq_appendOps, evaluate]
  rw [show ((appendOps (buildE st e).1 (buildE st e).2 [.funcOp nm] 1).1.opsOf
      ((appendOps (buildE st e).1 (buildE st e).2 [.funcOp nm] 1).1.tape
        (appendOps (buildE st e).1 (buildE st e).2 [.funcOp nm] 1).2).opsId).take
      ((appendOps (buildE st e).1 (buildE st e).2 [.funcOp nm] 1).1.tape
        (appendOps (buildE st e).1 (buildE st e).2 [.funcOp nm] 1).2).index
      = visible (buildE st e).1 (buildE st e).2 ++ [Entry.funcOp nm] from hvis]
  rw [show fuel = entsLen e + (fuel - entsLen e) from by rw [needFuel] at hf; omega]
  rw [heq [.funcOp nm] [] [] (fuel - entsLen e) (by rw [needFuel] at hf; omega)]
  rw [show fuel - entsLen e = (fuel - entsLen e - 1) + 1 from by rw [needFuel] at hf; omega]
  exact walk_funcOp _ _ _ _ _ _ _

/-- Evaluating a tape whose visible sequence is a built expression
followed by a `UNI_OP` entry succeeds and applies the elementwise
unary operation to the expression's value. -/
theorem evaluate_after_unary (e : Expr) (st : Store) (hWF : WFStore st) (u : USym) :
    ∃ (st2 : Store) (j2 : Nat),
      (∀ fuel, needFuel e + 2 ≤ fuel →
        evaluate fuel (updateUnary (buildE st e).1 (buildE st e).2 u).1
          (updateUnary (buildE st e).1 (buildE st e).2 u).2 = .ok (st2, .arrS j2)) ∧
      (st2.cell j2).vals = (denote e).vals.map (unRat u) := by
  obtain ⟨hB, hlt, hge, hoid, htip, hTF⟩ := buildE_spec e st
  have hWF1 := buildE_WF e st hWF
  obtain ⟨a1, a2, a3, a4, a5, a6, a7, a8, a9, a10, a11⟩ :=
    appendOps_spec (buildE st e).1 (buildE st e).2 [.unOp u] 1 hlt hWF1 rfl
  have hvis : visible (appendOps (buildE st e).1 (buildE st e).2 [.unOp u] 1).1
      (appendOps (buildE st e).1 (buildE st e).2 [.unOp u] 1).2
      = visible (buildE st e).1 (buildE st e).2 ++ [Entry.unOp u] := by
    rw [a1]
    exact a8
  have hEF : EntriesFor (appendOps (buildE st e).1 (buildE st e).2 [.unOp u] 1).1
      (visible (buildE st e).1 (buildE st e).2) e :=
    entriesFor_mono a11 hTF.2.2.2
  obtain ⟨st', j, mv, hE, hjlt, hjge, hjarr, hjvals, heq⟩ :=
    walk_seg e (appendOps (buildE st e).1 (buildE st e).2 [.unOp u] 1).1 _ hEF
      (tracksOf ((appendOps (buildE st e).1 (buildE st e).2 [.unOp u] 1).1.opsOf
        ((appendOps (buildE st e).1 (buildE st e).2 [.unOp u] 1).1.tape
          (appendOps (buildE st e).1 (buildE st e).2 [.unOp u] 1).2).opsId))
      (fun t ht => tracks_take (n := ((appendOps (buildE st e).1 (buildE st e).2
          [.unOp u] 1).1.tape (appendOps (buildE st e).1 (buildE st e).2 [.unOp u] 1).2).index)
        (by
          show Entry.track t ∈ visible (appendOps (buildE st e).1 (buildE st e).2 [.unOp u] 1).1
            (appendOps (buildE st e).1 (buildE st e).2 [.unOp u] 1).2
          rw [hvis]
          exact List.mem_append_left _ ht))
  have hmain : ∀ k, needH e ≤ k →
      evaluate (entsLen e + (k + 1)) (updateUnary (buildE st e).1 (buildE st e).2 u).1
        (updateUnary (buildE st e).1 (buildE st e).2 u).2
      = walk k
          (if mv then (st'.setCell j (un_op_to_np u (st'.cell j))) else
            (pushResult st' (un_op_to_np u (st'.cell j))).1) []
          ((if mv then SVal.arrS j else (pushResult st' (un_op_to_np u (st'.cell j))).2) :: [])
          (true :: []) (tracksOf ((appendOps (buildE st e).1 (buildE st e).2 [.unOp u] 1).1.opsOf
            ((appendOps (buildE st e).1 (buildE st e).2 [.unOp u] 1).1.tape
              (appendOps (buildE st e).1 (buildE st e).2 [.unOp u] 1).2).opsId)) := by
    intro k hk
    rw [updateUnary_eq_appendOps, evaluate]
    rw [show ((appendOps (buildE st e).1 (buildE st e).2 [.unOp u] 1).1.opsOf
        ((appendOps (buildE st e).1 (buildE st e).2 [.unOp u] 1).1.tape
          (appendOps (buildE st e).1 (buildE st e).2 [.unOp u] 1).2).opsId).take
        ((appendOps (buildE st e).1 (buildE st e).2 [.unOp u] 1).1.tape
          (appendOps (buildE st e).1 (buildE st e).2 [.unOp u] 1).2).index
        = visible (buildE st e).1 (buildE st e).2 ++ [Entry.unOp u] from hvis]
    rw [heq [.unOp u] [] [] (k + 1) (by omega)]
    rw [walk_unOp]
    simp only [resolveOp_arrS]
    cases mv with
    | true => rfl
    | false => rfl
  cases hmv : mv with
  | true =>
    refine ⟨st'.setCell j (un_op_to_np u (st'.cell j)), j, ?_, ?_⟩
    · intro fuel hf
      rw [show fuel = entsLen e + ((fuel - entsLen e - 1) + 1) from by
        rw [needFuel] at hf; omega]
      rw [hmain (fuel - entsLen e - 1) (by rw [needFuel] at hf; omega), hmv]
      exact walk_nil_cons _ _ _ _ _ _
    · rw [cell_setCell_self _ _ _ hjlt, un_vals, hjvals]
  | false =>
    have hresArr : (un_op_to_np u (st'.cell j)).isArr = true := by
      rw [un_isArr, hjarr]
    obtain ⟨j2, hp1, hp2, hp3, hp4, hp5, hp6⟩ :=
      pushResult_spec st' (un_op_to_np u (st'.cell j)) hresArr st'.arrays.length (Nat.le_refl _)
    refine ⟨(pushResult st' (un_op_to_np u (st'.cell j))).1, j2, ?_, ?_⟩
    · intro fuel hf
      rw [show fuel = entsLen e + ((fuel - entsLen e - 1) + 1) from by
        rw [needFuel] at hf; omega]
      rw [hmain (fuel - entsLen e - 1) (by rw [needFuel] at hf; omega), hmv]
      rw [← hp1]
      exact walk_nil_cons _ _ _ _ _ _
    · rw [hp6, un_vals, hjvals]

/-! ### Concrete scenarios from the specification -/

deriving instance DecidableEq for Except

attribute [local semireducible] Rat.add Rat.sub Rat.mul Rat.inv

/-- Run `evaluate` and observe the returned stack value. -/
def runSlot (fuel : Nat) (st : Store) (t : Nat) : Option SVal :=
  match evaluate fuel st t with
  | .ok (_, v) => some v
  | .error _ => none

/-- Run `evaluate` and observe heap cell `i` of the resulting store. -/
def runCellAt (fuel : Nat) (st : Store) (t : Nat) (i : Nat) : Option CVal :=
  match evaluate fuel st t with
  | .ok (st', _) => some (st'.cell i)
  | .error _ => none

/-- Run `evaluate` and observe the raised error, if any. -/
def runErr (fuel : Nat) (st : Store) (t : Nat) : Option EvalErr :=
  match evaluate fuel st t with
  | .ok _ => none
  | .error err => some err

def arrA : List ℚ := [0, 1, 2, 3]

def arrB : List ℚ := [1, 2, 3, 4]

/-- Scenario 2: `a*2 + b`. -/
def scen2a : Expr := .binTT .add (.binTC .mul (.leaf .int arrA) .int 2) (.leaf .int arrB)

/-- Scenario 2: `2*a + b` (reflected multiplication). -/
def scen2b : Expr := .binTT .add (.binCT .mul .int 2 (.leaf .int arrA)) (.leaf .int arrB)

/-- Scenario 2: `a*2 + 1*b`. -/
def scen2c : Expr :=
  .binTT .add (.binTC .mul (.leaf .int arrA) .int 2) (.binCT .mul .int 1 (.leaf .int arrB))

/-- Scenario 3: `1 + o` for `o = [1,2,3,4]`. -/
def scen3a : Expr := .binCT .add .int 1 (.leaf .int arrB)

/-- Scenario 3: `1 + (2*o)`. -/
def scen3b : Expr := .binCT .add .int 1 (.binCT .mul .int 2 (.leaf .int arrB))

/-- Reflected subtraction: `1 - o`. -/
def scen3c : Expr := .binCT .sub .int 1 (.leaf .int arrB)

/-- Scenario 5: `a / b` on integer leaves. -/
def scen5 : Expr := .binTT .tdiv (.leaf .int arrA) (.leaf .int arrB)

/-- `(a*2) / b`: true division whose left operand owns a mutable
integer buffer, exercising the in-place failure fallback. -/
def scen5b : Expr := .binTT .tdiv (.binTC .mul (.leaf .int arrA) .int 2) (.leaf .int arrB)

/-- Build an expression in the empty store and evaluate it. -/
def runE (e : Expr) : Option (List ℚ) :=
  runVals 60 (buildE emptyStore e).1 (buildE emptyStore e).2

/-- Build an expression in the empty store and evaluate it, keeping
the dtype. -/
def runEC (e : Expr) : Option CVal :=
  runCVal 60 (buildE emptyStore e).1 (buildE emptyStore e).2

/-- Scenario 4: `t + t` on one shared leaf handle `t`. -/
def tptp : Store × Nat :=
  let pt := newLeaf emptyStore .int arrA
  updateBinary pt.1 pt.2 (.tapeOp pt.2) .add false

/-- `a + b` on two leaf handles (the nested tape `b` gets refcount 1). -/
def abSum : Store × Nat := buildE emptyStore (.binTT .add (.leaf .int arrA) (.leaf .int arrB))

/-- `abs(o)`: the tape produced by the `__abs__` dunder
(`__update_func__("abs")`). -/
def absTape : Store × Nat :=
  let po := newLeaf emptyStore .int arrB
  updateFunc po.1 po.2 "abs"

theorem bin_dtype (s : Sym) (a b : CVal) :
    (bin_op_to_np s a b).dtype = resultDType s a.dtype b.dtype := by
  cases a <;> cases b <;> rfl

/-! ### The claims -/

/-- C1: for every expression built purely from leaf tapes combined with
the supported binary operators (forward or reflected) and scalar
constants, `evaluate()` on the built tape succeeds and returns a value
numerically equal to evaluating the same expression directly on the
underlying concrete arrays; in particular, with int leaves
`a = [0,1,2,3]` and `b = [1,2,3,4]`, `evaluate(a*2 + b) = [1,4,7,10]
= evaluate(2*a + b) = evaluate(a*2 + 1*b)`. -/
theorem evaluate_agrees_with_direct (e : Expr) (st : Store) (fuel : Nat)
    (hfuel : needFuel e ≤ fuel) :
    (∃ (st' : Store) (j : Nat),
      evaluate fuel (buildE st e).1 (buildE st e).2 = .ok (st', .arrS j) ∧
      (st'.cell j).isArr = true ∧
      (st'.cell j).vals = (denote e).vals) ∧
    runE scen2a = some [1, 4, 7, 10] ∧
    runE scen2b = runE scen2a ∧
    runE scen2c = runE scen2a := by
  obtain ⟨st', j, hrun, hE, hjlt, hjarr, hjvals⟩ := evaluate_build e st
  exact ⟨⟨st', j, hrun fuel hfuel, hjarr, hjvals⟩, by decide, by decide, by decide⟩

theorem evaluate_agrees_with_direct_witness :
    needFuel scen2a ≤ 60 ∧
    (∃ (st' : Store) (j : Nat),
      evaluate 60 (buildE emptyStore scen2a).1 (buildE emptyStore scen2a).2
        = .ok (st', .arrS j) ∧
      (st'.cell j).isArr = true ∧
      (st'.cell j).vals = (denote scen2a).vals) :=
  ⟨by decide, (evaluate_agrees_with_direct scen2a emptyStore 60 (by decide)).1⟩

/-- C2: evaluating a tape never mutates the leaf source data (nor any
other cell that existed when evaluation began); in particular for a
leaf tape `t`, `evaluate(t + t) = 2*t.data` elementwise and `t.data` is
unmodified afterwards. -/
theorem evaluation_preserves_prior_cells (e : Expr) (st : Store) (fuel : Nat)
    (hfuel : needFuel e ≤ fuel) :
    (∃ (st' : Store) (j : Nat),
      evaluate fuel (buildE st e).1 (buildE st e).2 = .ok (st', .arrS j) ∧
      ∀ i, i < (buildE st e).1.arrays.length → st'.cell i = (buildE st e).1.cell i) ∧
    runVals 60 tptp.1 tptp.2 = some [0, 2, 4, 6] ∧
    runCellAt 60 tptp.1 tptp.2 0 = some (.arrv .int [0, 1, 2, 3]) ∧
    tptp.1.cell 0 = .arrv .int [0, 1, 2, 3] := by
  obtain ⟨st', j, hrun, hE, hjlt, hjarr, hjvals⟩ := evaluate_build e st
  exact ⟨⟨st', j, hrun fuel hfuel, hE.2.2.2⟩, by decide, by decide, by decide⟩

theorem evaluation_preserves_prior_cells_witness :
    needFuel scen2a ≤ 60 ∧
    (∃ (st' : Store) (j : Nat),
      evaluate 60 (buildE emptyStore scen2a).1 (buildE emptyStore scen2a).2
        = .ok (st', .arrS j) ∧
      ∀ i, i < (buildE emptyStore scen2a).1.arrays.length →
        st'.cell i = (buildE emptyStore scen2a).1.cell i) :=
  ⟨by decide, (evaluation_preserves_prior_cells scen2a emptyStore 60 (by decide)).1⟩

/-- C3 counterexample: in `a + b` the nested tape `b` (tape id 1) has
`refcount = 1`, yet it is in the up-front immutable set (so its
mutability flag is False): evaluation returns a freshly allocated
buffer (cell 2) rather than consuming `b`'s buffer (cell 1), which is
left untouched.  This contradicts the claim that the immutable set
contains exactly the nested tapes whose refcount is not 1. -/
theorem immutable_set_ignores_refcount :
    (abSum.1.tape 1).refcount = 1 ∧
    1 ∈ tracksOf (abSum.1.opsOf (abSum.1.tape abSum.2).opsId) ∧
    runSlot 60 abSum.1 abSum.2 = some (.arrS 2) ∧
    runCellAt 60 abSum.1 abSum.2 1 = some (.arrv .int [1, 2, 3, 4]) := by
  refine ⟨by decide, by decide, by decide, by decide⟩

/-- C3 amended: the up-front `immutable` set contains *every* nested
tape of the full operand list, regardless of refcount, so an `Operand`
entry referencing a nested tape is always pushed with mutability
`False` (in particular also when its refcount equals 1). -/
theorem track_operands_always_pushed_immutable :
    (∀ (l : List Entry) (t : Nat), t ∈ tracksOf l ↔ Entry.track t ∈ l) ∧
    (∀ (f : Nat) (st : Store) (u : Nat) (rest : List Entry) (stack : List SVal)
       (muts : List Bool) (imm : List Nat), u ∈ imm →
       walk (f + 1) st (.track u :: rest) stack muts imm
         = walk f st rest (.tapeS u :: stack) (false :: muts) imm) ∧
    (∀ (st : Store) (t u : Nat),
       Entry.track u ∈ (st.opsOf (st.tape t).opsId).take (st.tape t).index →
       u ∈ tracksOf (st.opsOf (st.tape t).opsId)) := by
  refine ⟨mem_tracksOf_iff, ?_, fun st t u h => tracks_take h⟩
  intro f st u rest stack muts imm hu
  rw [walk_track]
  rw [show (decide (u ∉ imm)) = false from by simp [hu]]

theorem track_operands_always_pushed_immutable_witness :
    (0 : Nat) ∈ [0] ∧
    walk 1 emptyStore [.track 0] [] [] [0]
      = walk 0 emptyStore [] [.tapeS 0] [false] [0] :=
  ⟨by decide,
   track_operands_always_pushed_immutable.2.1 0 emptyStore 0 [] [] [] [0] (by decide)⟩

/-- C4: every operator application on a well-formed tape handle returns
a new handle (the fresh tape id), never changes the visible sequence of
any existing handle, advances the cursor by 2 for binary applications
and by 1 for unary and function applications, and preserves the
invariant `cursor ≤ len(ops)` for every handle. -/
theorem operator_application_pure (st : Store) (hWF : WFStore st) (selfT : Nat)
    (hself : selfT < st.tapes.length) :
    (∀ (other : BOperand) (s : Sym) (rev : Bool),
      (updateBinary st selfT other s rev).2 = st.tapes.length ∧
      ((updateBinary st selfT other s rev).1.tape (updateBinary st selfT other s rev).2).index
        = (st.tape selfT).index + 2 ∧
      (∀ h, h < st.tapes.length →
        visible (updateBinary st selfT other s rev).1 h = visible st h) ∧
      WFStore (updateBinary st selfT other s rev).1) ∧
    (∀ u : USym,
      (updateUnary st selfT u).2 = st.tapes.length ∧
      ((updateUnary st selfT u).1.tape (updateUnary st selfT u).2).index
        = (st.tape selfT).index + 1 ∧
      (∀ h, h < st.tapes.length → visible (updateUnary st selfT u).1 h = visible st h) ∧
      WFStore (updateUnary st selfT u).1) ∧
    (∀ nm : String,
      (updateFunc st selfT nm).2 = st.tapes.length ∧
      ((updateFunc st selfT nm).1.tape (updateFunc st selfT nm).2).index
        = (st.tape selfT).index + 1 ∧
      (∀ h, h < st.tapes.length → visible (updateFunc st selfT nm).1 h = visible st h) ∧
      WFStore (updateFunc st selfT nm).1) := by
  refine ⟨?_, ?_, ?_⟩
  · intro other s rev
    obtain ⟨g1, g2, g3, g4, g5, g6⟩ := updateBinary_general st selfT other s rev hself hWF
    exact ⟨g1, g3, g5, g6⟩
  · intro u
    obtain ⟨a1, a2, a3, a4, a5, a6, a7, a8, a9, a10, a11⟩ :=
      appendOps_spec st selfT [.unOp u] 1 hself hWF rfl
    rw [updateUnary_eq_appendOps]
    exact ⟨a1, by rw [a1]; exact a5, fun h hh => a9 h hh, a10⟩
  · intro nm
    obtain ⟨a1, a2, a3, a4, a5, a6, a7, a8, a9, a10, a11⟩ :=
      appendOps_spec st selfT [.funcOp nm] 1 hself hWF rfl
    rw [updateFunc_eq_appendOps]
    exact ⟨a1, by rw [a1]; exact a5, fun h hh => a9 h hh, a10⟩

theorem operator_application_pure_witness :
    WFStore (newLeaf emptyStore .int [1, 2]).1 ∧
    (0 : Nat) < (newLeaf emptyStore .int [1, 2]).1.tapes.length ∧
    ((updateBinary (newLeaf emptyStore .int [1, 2]).1 0 (.constOp .int 3) .add false).1.tape
        (updateBinary (newLeaf emptyStore .int [1, 2]).1 0 (.constOp .int 3) .add false).2).index
      = ((newLeaf emptyStore .int [1, 2]).1.tape 0).index + 2 :=
  ⟨by unfold WFStore; decide, by decide,
   ((operator_application_pure (newLeaf emptyStore .int [1, 2]).1
      (by unfold WFStore; decide) 0 (by decide)).1 (.constOp .int 3) .add false).2.1⟩

/-- C5: when an in-place binary attempt is impossible (e.g. a true
division result cannot be safely cast into an integer out buffer) the
evaluator recovers internally by computing into a fresh buffer, and the
binary step never surfaces an error for resolved operands; consequently
`evaluate(a / b)` on integer leaves yields a floating-point result
equal to the exact true division. -/
theorem inplace_failure_recovered (f : Nat) (st : Store) (s : Sym) (lslot : SVal)
    (ml : Bool) (rslot : SVal) (mr : Bool) (rest : List Entry) (stack : List SVal)
    (muts : List Bool) (imm : List Nat)
    (hl : ∀ t, lslot ≠ .tapeS t) (hr : ∀ t, rslot ≠ .tapeS t) :
    (binStep f st s lslot ml rslot mr rest stack muts imm
      = walk f (binApply st s lslot ml rslot mr).1 rest
          ((binApply st s lslot ml rslot mr).2 :: stack) (true :: muts) imm) ∧
    (∀ (i : Nat) (lv rv : CVal), (st.cell i).dtype = .int →
      tryInplace st .tdiv (.arrS i) lv rv = none) ∧
    runEC scen5 = some (.arrv .float [0, 1/2, 2/3, 3/4]) ∧
    runEC scen5b = some (.arrv .float [0, 1, 4/3, 3/2]) := by
  refine ⟨?_, ?_, by decide, by decide⟩
  · cases lslot with
    | tapeS t => exact absurd rfl (hl t)
    | arrS i =>
      cases rslot with
      | tapeS t => exact absurd rfl (hr t)
      | arrS i2 => rfl
      | sclS d2 x2 => rfl
    | sclS d1 x1 =>
      cases rslot with
      | tapeS t => exact absurd rfl (hr t)
      | arrS i2 => rfl
      | sclS d2 x2 => rfl
  · intro i lv rv hd
    rw [tryInplace]
    have hdt : canCastSafe (bin_op_to_np .tdiv lv rv).dtype (st.cell i).dtype = false := by
      rw [bin_dtype, hd]
      rfl
    rw [if_neg (by rw [hdt]; simp)]

theorem inplace_failure_recovered_witness :
    (∀ t, SVal.sclS .int 1 ≠ SVal.tapeS t) ∧
    (binStep 5 emptyStore .add (.sclS .int 1) false (.sclS .int 2) false [] [] [] []
      = walk 5 (binApply emptyStore .add (.sclS .int 1) false (.sclS .int 2) false).1 []
          ((binApply emptyStore .add (.sclS .int 1) false (.sclS .int 2) false).2 :: [])
          (true :: []) []) :=
  ⟨fun t => by simp,
   (inplace_failure_recovered 5 emptyStore .add (.sclS .int 1) false (.sclS .int 2) false
     [] [] [] [] (fun t => by simp) (fun t => by simp)).1⟩

/-- C6: reflected binary operators evaluate with the constant as the
logical left operand despite the reversed push order: for a leaf `t`
and constant `c`, `evaluate(c OP t)` equals `c OP t.data` elementwise;
in particular `evaluate(1+o) = [2,3,4,5]`, `evaluate(1+(2*o)) =
[3,5,7,9]` for `o = [1,2,3,4]`, and `evaluate(1 - o) = 1 - o.data`. -/
theorem reflected_const_op_correct (s : Sym) (dc : DType) (c : ℚ) (d : DType)
    (xs : List ℚ) (st : Store) (fuel : Nat)
    (hfuel : needFuel (.binCT s dc c (.leaf d xs)) ≤ fuel) :
    (∃ (st' : Store) (j : Nat),
      evaluate fuel (buildE st (.binCT s dc c (.leaf d xs))).1
        (buildE st (.binCT s dc c (.leaf d xs))).2 = .ok (st', .arrS j) ∧
      (st'.cell j).vals = (bin_op_to_np s (.scl dc c) (.arrv d xs)).vals) ∧
    runE scen3a = some [2, 3, 4, 5] ∧
    runE scen3b = some [3, 5, 7, 9] ∧
    runE scen3c = some [0, -1, -2, -3] := by
  obtain ⟨st', j, hrun, hE, hjlt, hjarr, hjvals⟩ :=
    evaluate_build (.binCT s dc c (.leaf d xs)) st
  exact ⟨⟨st', j, hrun fuel hfuel, hjvals⟩, by decide, by decide, by decide⟩

theorem reflected_const_op_correct_witness :
    needFuel (.binCT .sub .int 1 (.leaf .int arrB)) ≤ 60 ∧
    (∃ (st' : Store) (j : Nat),
      evaluate 60 (buildE emptyStore (.binCT .sub .int 1 (.leaf .int arrB))).1
        (buildE emptyStore (.binCT .sub .int 1 (.leaf .int arrB))).2 = .ok (st', .arrS j) ∧
      (st'.cell j).vals = (bin_op_to_np .sub (.scl .int 1) (.arrv .int arrB)).vals) :=
  ⟨by decide,
   (reflected_const_op_correct .sub .int 1 .int arrB emptyStore 60 (by decide)).1⟩

/-- C7: evaluating any tape built from an expression followed by a
`FuncOp` entry (e.g. one produced by applying `abs`) fails with the
not-implemented error; it never passes the operand through or produces
a numeric result. -/
theorem funcop_evaluation_fails (e : Expr) (st : Store) (hWF : WFStore st) (nm : String)
    (fuel : Nat) (hfuel : needFuel e + 1 ≤ fuel) :
    evaluate fuel (updateFunc (buildE st e).1 (buildE st e).2 nm).1
      (updateFunc (buildE st e).1 (buildE st e).2 nm).2 = .error .notImplemented ∧
    runErr 60 absTape.1 absTape.2 = some .notImplemented ∧
    runVals 60 absTape.1 absTape.2 = none :=
  ⟨evaluate_after_func e st hWF nm fuel hfuel, by decide, by decide⟩

theorem funcop_evaluation_fails_witness :
    WFStore emptyStore ∧ needFuel (.leaf .int [1, 2]) + 1 ≤ 60 ∧
    evaluate 60
      (updateFunc (buildE emptyStore (.leaf .int [1, 2])).1
        (buildE emptyStore (.leaf .int [1, 2])).2 "abs").1
      (updateFunc (buildE emptyStore (.leaf .int [1, 2])).1
        (buildE emptyStore (.leaf .int [1, 2])).2 "abs").2 = .error .notImplemented :=
  ⟨by unfold WFStore; decide, by decide,
   (funcop_evaluation_fails (.leaf .int [1, 2]) emptyStore (by unfold WFStore; decide)
     "abs" 60 (by decide)).1⟩

/-- C8 (the intended semantics the generated unary dunders should
expose): `__update_unary__` on any well-formed handle returns a new
handle with one `UnaryOp` entry appended to the visible sequence,
cursor advanced by 1 and no existing handle's visible sequence changed;
evaluating the resulting tape applies the corresponding elementwise
unary operation to the operand's value. -/
theorem update_unary_semantics (u : USym) (e : Expr) (st : Store) (hWF : WFStore st)
    (selfT : Nat) (hself : selfT < st.tapes.length) :
    ((updateUnary st selfT u).2 = st.tapes.length ∧
     ((updateUnary st selfT u).1.tape (updateUnary st selfT u).2).index
        = (st.tape selfT).index + 1 ∧
     visible (updateUnary st selfT u).1 (updateUnary st selfT u).2
        = visible st selfT ++ [.unOp u] ∧
     (∀ h, h < st.tapes.length → visible (updateUnary st selfT u).1 h = visible st h)) ∧
    (∃ (st2 : Store) (j2 : Nat),
      (∀ fuel, needFuel e + 2 ≤ fuel →
        evaluate fuel (updateUnary (buildE st e).1 (buildE st e).2 u).1
          (updateUnary (buildE st e).1 (buildE st e).2 u).2 = .ok (st2, .arrS j2)) ∧
      (st2.cell j2).vals = (denote e).vals.map (unRat u)) := by
  obtain ⟨a1, a2, a3, a4, a5, a6, a7, a8, a9, a10, a11⟩ :=
    appendOps_spec st selfT [.unOp u] 1 hself hWF rfl
  refine ⟨?_, evaluate_after_unary e st hWF u⟩
  rw [updateUnary_eq_appendOps]
  exact ⟨a1, by rw [a1]; exact a5, by rw [a1]; exact a8,
    fun h hh => a9 h hh⟩

theorem update_unary_semantics_witness :
    WFStore emptyStore ∧
    (0 : Nat) < (newLeaf emptyStore .int [1, 2]).1.tapes.length ∧
    visible (updateUnary (newLeaf emptyStore .int [1, 2]).1 0 .neg).1
        (updateUnary (newLeaf emptyStore .int [1, 2]).1 0 .neg).2
      = visible (newLeaf emptyStore .int [1, 2]).1 0 ++ [.unOp .neg] :=
  ⟨by unfold WFStore; decide, by decide,
   ((update_unary_semantics .neg (.leaf .int [1, 2]) (newLeaf emptyStore .int [1, 2]).1
      (by unfold WFStore; decide) 0 (by decide)).1).2.2.1⟩

/-- C9: a tape's refcount starts at 0 on construction (leaves and
handles returned by the update operations alike), is incremented by
exactly 1 when the tape is embedded as an `Operand` by a binary
operator application, and is never decremented by leaf construction,
any update operation, or a successful `evaluate`. -/
theorem refcount_monotone (st : Store) (hWF : WFStore st) (selfT : Nat)
    (hself : selfT < st.tapes.length) :
    (∀ (d : DType) (xs : List ℚ),
      ((newLeaf st d xs).1.tape (newLeaf st d xs).2).refcount = 0) ∧
    (∀ (other : BOperand) (s : Sym) (rev : Bool),
      ((updateBinary st selfT other s rev).1.tape
        (updateBinary st selfT other s rev).2).refcount = 0) ∧
    (∀ (t : Nat) (s : Sym) (rev : Bool), t < st.tapes.length →
      ((updateBinary st selfT (.tapeOp t) s rev).1.tape t).refcount
        = (st.tape t).refcount + 1) ∧
    (∀ (t : Nat) (s : Sym) (rev : Bool) (w : Nat), w < st.tapes.length → w ≠ t →
      ((updateBinary st selfT (.tapeOp t) s rev).1.tape w).refcount
        = (st.tape w).refcount) ∧
    (∀ (d : DType) (x : ℚ) (s : Sym) (rev : Bool) (w : Nat), w < st.tapes.length →
      ((updateBinary st selfT (.constOp d x) s rev).1.tape w).refcount
        = (st.tape w).refcount) ∧
    (∀ (uo : USym) (w : Nat), w < st.tapes.length →
      ((updateUnary st selfT uo).1.tape w).refcount = (st.tape w).refcount) ∧
    (∀ (nm : String) (w : Nat), w < st.tapes.length →
      ((updateFunc st selfT nm).1.tape w).refcount = (st.tape w).refcount) ∧
    (∀ (fuel t : Nat) (st' : Store) (v : SVal),
      evaluate fuel st t = .ok (st', v) → st'.tapes = st.tapes) := by
  have hoid := (hWF selfT hself).1
  have refspec : ∀ (other : BOperand) (s : Sym) (rev : Bool),
      ((updateBinary st selfT other s rev).1.tape
        (updateBinary st selfT other s rev).2).refcount = 0 ∧
      (∀ w, w < st.tapes.length →
        (updateBinary st selfT other s rev).1.tape w
          = (match other with
             | .tapeOp t =>
               if w = t then { st.tape w with refcount := (st.tape w).refcount + 1 }
               else st.tape w
             | .constOp _ _ => st.tape w)) := by
    intro other s rev
    by_cases htip : (st.tape selfT).index = (st.opsOf (st.tape selfT).opsId).length
    · obtain ⟨u1, u2, u3, u4, u5, u6, u7, u8⟩ :=
        updateBinary_spec st selfT other s rev htip hoid
      exact ⟨by rw [u1, u5], u8⟩
    · obtain ⟨u1, u2, u3, u4, u5, u6, u7, u8⟩ :=
        updateBinary_spec_copy st selfT other s rev htip
      exact ⟨by rw [u1, u5], u8⟩
  refine ⟨?_, fun other s rev => (refspec other s rev).1, ?_, ?_, ?_, ?_, ?_, ?_⟩
  · intro d xs
    rw [(newLeaf_build st d xs).2.2.2.2.2.1]
  · intro t s rev ht
    rw [(refspec (.tapeOp t) s rev).2 t ht]
    simp
  · intro t s rev w hw hne
    rw [(refspec (.tapeOp t) s rev).2 w hw]
    simp [hne]
  · intro d x s rev w hw
    rw [(refspec (.constOp d x) s rev).2 w hw]
  · intro uo w hw
    obtain ⟨a1, a2, a3, a4, a5, a6, a7, a8, a9, a10, a11⟩ :=
      appendOps_spec st selfT [.unOp uo] 1 hself hWF rfl
    rw [updateUnary_eq_appendOps, a4 w hw]
  · intro nm w hw
    obtain ⟨a1, a2, a3, a4, a5, a6, a7, a8, a9, a10, a11⟩ :=
      appendOps_spec st selfT [.funcOp nm] 1 hself hWF rfl
    rw [updateFunc_eq_appendOps, a4 w hw]
  · intro fuel t st' v h
    exact ((walk_store_frame fuel).1 _ _ _ _ _ _ _ h).1

theorem refcount_monotone_witness :
    WFStore tptp.1 ∧ (0 : Nat) < tptp.1.tapes.length ∧
    (((updateBinary tptp.1 0 (.tapeOp 0) .add false).1.tape 0).refcount
      = (tptp.1.tape 0).refcount + 1) :=
  ⟨by unfold WFStore; decide, by decide,
   (refcount_monotone tptp.1 (by unfold WFStore; decide) 0 (by decide)).2.2.1 0 .add false
     (by decide)⟩

/-- C10: evaluating a freshly constructed leaf tape returns exactly the
stored data cell with the store unchanged (no copy, no arithmetic, no
allocation); the leaf's visible sequence has one entry and its cursor
is 1. -/
theorem leaf_evaluate_roundtrip (st : Store) (d : DType) (xs : List ℚ) (fuel : Nat)
    (hf : 1 ≤ fuel) :
    evaluate fuel (newLeaf st d xs).1 (newLeaf st d xs).2
      = .ok ((newLeaf st d xs).1, .arrS st.arrays.length) ∧
    (newLeaf st d xs).1.tape (newLeaf st d xs).2
      = ⟨some st.arrays.length, 0, st.opsLists.length, 1⟩ ∧
    (newLeaf st d xs).1.cell st.arrays.length = .arrv d xs ∧
    ((newLeaf st d xs).1.opsOf st.opsLists.length).length = 1 := by
  obtain ⟨hb, h2, hlt, hlo, hla, htp, hof, hc⟩ := newLeaf_build st d xs
  refine ⟨?_, htp, hc, by rw [hof]; rfl⟩
  rw [evaluate, htp]
  show walk fuel (newLeaf st d xs).1
      (((newLeaf st d xs).1.opsOf st.opsLists.length).take 1) [] []
      (tracksOf ((newLeaf st d xs).1.opsOf st.opsLists.length)) = _
  rw [hof]
  cases fuel with
  | zero => omega
  | succ f =>
    rw [show ([Entry.varArr st.arrays.length].take 1) = [Entry.varArr st.arrays.length]
      from rfl]
    rw [walk_varArr]
    exact walk_nil_cons _ _ _ _ _ _

theorem leaf_evaluate_roundtrip_witness :
    (1 : Nat) ≤ 5 ∧
    evaluate 5 (newLeaf emptyStore .int [7, 8]).1 (newLeaf emptyStore .int [7, 8]).2
      = .ok ((newLeaf emptyStore .int [7, 8]).1, .arrS 0) :=
  ⟨by decide, (leaf_evaluate_roundtrip emptyStore .int [7, 8] 5 (by decide)).1⟩

end Darray
